import Mathlib

/-!
Verification of the pixel-hint compositor core of the pinenote-service
daemon: integer rectangle algebra (`Rect`, `SplitRect`), the Z-ordered
occlusion tree (`ZTree`), the packed rendering `Hint`, and the
window/application registry (`PixelManager`).  Every definition is a
shallow embedding of the corresponding Rust item; `i32` values are
modelled as `Int` (the i32 numeric literals `2147483647` and
`-2147483648` appear exactly where the source uses `i32::MAX` /
`i32::MIN`).  Fallible operations are modelled with `Option` / `Except`.
-/

namespace PinenoteService

/-- Axis-aligned rectangle, `src/types/rect.rs`. `x1,y1` inclusive,
`x2,y2` exclusive. -/
structure Rect where
  x1 : Int
  y1 : Int
  x2 : Int
  y2 : Int
deriving DecidableEq, Repr

namespace Rect

/-- `Rect::intersect` (boundary-inclusive comparisons, as in the source). -/
def intersect (a rhs : Rect) : Bool :=
  decide (a.x1 ≤ rhs.x2) && decide (a.x2 ≥ rhs.x1) &&
  decide (a.y1 ≤ rhs.y2) && decide (a.y2 ≥ rhs.y1)

/-- `Rect::cover`: `other ⊆ a`, boundary inclusive. -/
def cover (a other : Rect) : Bool :=
  decide (a.x1 ≤ other.x1) && decide (a.y1 ≤ other.y1) &&
  decide (a.x2 ≥ other.x2) && decide (a.y2 ≥ other.y2)

/-- `Rect::intersection`: clamped overlap, `none` when a dimension is
non-positive (the source's intermediate `inter` rectangle is inlined). -/
def intersection (a other : Rect) : Option Rect :=
  if min a.x2 other.x2 - max a.x1 other.x1 ≤ 0 ∨
     min a.y2 other.y2 - max a.y1 other.y1 ≤ 0 then none
  else some ⟨max a.x1 other.x1, max a.y1 other.y1,
             min a.x2 other.x2, min a.y2 other.y2⟩

/-- Closed-open point membership: the set of pixels a `Rect` denotes. -/
def memPt (r : Rect) (x y : Int) : Prop :=
  r.x1 ≤ x ∧ x < r.x2 ∧ r.y1 ≤ y ∧ y < r.y2

instance (r : Rect) (x y : Int) : Decidable (r.memPt x y) := by
  unfold memPt; infer_instance

/-- A rectangle with positive width and height. -/
def posRect (r : Rect) : Prop := r.x1 < r.x2 ∧ r.y1 < r.y2

instance (r : Rect) : Decidable (r.posRect) := by
  unfold posRect; infer_instance

/-- `q` lies inside `r`, comparing coordinates (closed containment). -/
def subRect (q r : Rect) : Prop :=
  r.x1 ≤ q.x1 ∧ r.y1 ≤ q.y1 ∧ q.x2 ≤ r.x2 ∧ q.y2 ≤ r.y2

instance (q r : Rect) : Decidable (q.subRect r) := by
  unfold subRect; infer_instance

/-- All four coordinates fit in `i32`; true of every rectangle the Rust
program can represent. -/
def inI32Range (r : Rect) : Prop :=
  -2147483648 ≤ r.x1 ∧ r.x1 ≤ 2147483647 ∧
  -2147483648 ≤ r.y1 ∧ r.y1 ≤ 2147483647 ∧
  -2147483648 ≤ r.x2 ∧ r.x2 ≤ 2147483647 ∧
  -2147483648 ≤ r.y2 ∧ r.y2 ≤ 2147483647

instance (r : Rect) : Decidable (r.inI32Range) := by
  unfold inI32Range; infer_instance

end Rect

/-- `SplitRect`: a rectangle split into residual pieces
(`src/types/rect.rs`). -/
abbrev SplitRect := List Rect

namespace SplitRect

/-- `SplitRect::is_empty`. -/
def is_empty (s : SplitRect) : Bool := s.isEmpty

/-- `SplitRect::bounds`: fold of component-wise min/max starting from
`(i32::MAX, i32::MAX, i32::MIN, i32::MIN)`. -/
def bounds (s : SplitRect) : Option Rect :=
  if s.isEmpty then none
  else some (s.foldl
    (fun racc r => ⟨min racc.x1 r.x1, min racc.y1 r.y1,
                    max racc.x2 r.x2, max racc.y2 r.y2⟩)
    ⟨2147483647, 2147483647, -2147483648, -2147483648⟩)

/-- `SplitRect::mask_rect`: residual decomposition of `r` minus `other`. -/
def mask_rect (r other : Rect) : SplitRect :=
  match Rect.intersection r other with
  | none => [r]
  | some inter =>
    ([⟨r.x1, r.y1, inter.x1, inter.y2⟩,
      ⟨inter.x1, r.y1, r.x2, inter.y1⟩,
      ⟨inter.x2, inter.y1, r.x2, r.y2⟩,
      ⟨r.x1, inter.y2, inter.x2, r.y2⟩] : List Rect).filter
      (fun q => decide (0 < q.x2 - q.x1) && decide (0 < q.y2 - q.y1))

/-- `SplitRect::mask_with`: mask every member. -/
def mask_with (s : SplitRect) (other : Rect) : SplitRect :=
  s.flatMap (fun r => mask_rect r other)

/-- A point lies in the region a `SplitRect` covers. -/
def coveredPt (s : SplitRect) (x y : Int) : Prop :=
  ∃ q ∈ s, q.memPt x y

instance (s : SplitRect) (x y : Int) : Decidable (coveredPt s x y) := by
  unfold coveredPt; infer_instance

end SplitRect

section RectLemmas

open Rect SplitRect

theorem intersection_eq_none_iff (a b : Rect) :
    Rect.intersection a b = none ↔
      min a.x2 b.x2 - max a.x1 b.x1 ≤ 0 ∨ min a.y2 b.y2 - max a.y1 b.y1 ≤ 0 := by
  unfold Rect.intersection
  split <;> simp_all

theorem intersection_eq_some_iff (a b : Rect) (i : Rect) :
    Rect.intersection a b = some i ↔
      i = ⟨max a.x1 b.x1, max a.y1 b.y1, min a.x2 b.x2, min a.y2 b.y2⟩ ∧
      0 < min a.x2 b.x2 - max a.x1 b.x1 ∧ 0 < min a.y2 b.y2 - max a.y1 b.y1 := by
  unfold Rect.intersection
  split
  · constructor
    · intro h; cases h
    · intro ⟨h1, h2, h3⟩; omega
  · constructor
    · intro h
      injection h with h
      subst h
      refine ⟨rfl, ?_, ?_⟩ <;> omega
    · intro ⟨h1, _, _⟩
      rw [h1]

/-- Membership in a masked single rectangle: exactly `r` minus `other`,
with no hypotheses on `r`. -/
theorem mask_rect_coveredPt (r other : Rect) (x y : Int) :
    coveredPt (mask_rect r other) x y ↔ (r.memPt x y ∧ ¬ other.memPt x y) := by
  unfold mask_rect
  cases h : Rect.intersection r other with
  | none =>
    rw [intersection_eq_none_iff] at h
    simp only [coveredPt, List.mem_singleton]
    constructor
    · rintro ⟨q, rfl, hq⟩
      refine ⟨hq, ?_⟩
      unfold Rect.memPt at *
      omega
    · rintro ⟨hr, _⟩
      exact ⟨r, rfl, hr⟩
  | some inter =>
    rw [intersection_eq_some_iff] at h
    obtain ⟨hi, hw, hh⟩ := h
    subst hi
    simp only [coveredPt, List.mem_filter, List.mem_cons, List.mem_singleton,
      List.not_mem_nil, or_false, Bool.and_eq_true, decide_eq_true_eq]
    constructor
    · rintro ⟨q, ⟨hq, _⟩, hmem⟩
      unfold Rect.memPt at *
      rcases hq with rfl | rfl | rfl | rfl <;>
        (simp only at hmem ⊢; omega)
    · rintro ⟨hr, hm⟩
      unfold Rect.memPt at hr hm
      by_cases h1 : x < max r.x1 other.x1 ∧ y < min r.y2 other.y2
      · refine ⟨_, ⟨Or.inl rfl, ?_, ?_⟩, ?_⟩ <;>
          (try unfold Rect.memPt) <;> simp only <;> omega
      · by_cases h2 : max r.x1 other.x1 ≤ x ∧ y < max r.y1 other.y1
        · refine ⟨_, ⟨Or.inr (Or.inl rfl), ?_, ?_⟩, ?_⟩ <;>
            (try unfold Rect.memPt) <;> simp only <;> omega
        · by_cases h3 : min r.x2 other.x2 ≤ x ∧ max r.y1 other.y1 ≤ y
          · refine ⟨_, ⟨Or.inr (Or.inr (Or.inl rfl)), ?_, ?_⟩, ?_⟩ <;>
              (try unfold Rect.memPt) <;> simp only <;> omega
          · refine ⟨_, ⟨Or.inr (Or.inr (Or.inr rfl)), ?_, ?_⟩, ?_⟩ <;>
              (try unfold Rect.memPt) <;> simp only <;> omega

/-- Every residual of `mask_rect` lies inside the unmasked rectangle. -/
theorem mask_rect_subRect (r other : Rect) :
    ∀ q ∈ mask_rect r other, q.subRect r := by
  unfold mask_rect
  cases h : Rect.intersection r other with
  | none =>
    intro q hq
    simp only [List.mem_singleton] at hq
    subst hq
    unfold Rect.subRect; omega
  | some inter =>
    rw [intersection_eq_some_iff] at h
    obtain ⟨hi, hw, hh⟩ := h
    subst hi
    intro q hq
    simp only [List.mem_filter, List.mem_cons, List.mem_singleton,
      List.not_mem_nil, or_false] at hq
    obtain ⟨hq, _⟩ := hq
    rcases hq with rfl | rfl | rfl | rfl <;> (unfold Rect.subRect; simp only) <;> omega

/-- Residuals that survive the filter have positive dimensions. -/
theorem mask_rect_posRect (r other : Rect) (hr : r.posRect) :
    ∀ q ∈ mask_rect r other, q.posRect := by
  unfold mask_rect
  cases h : Rect.intersection r other with
  | none =>
    intro q hq
    simp only [List.mem_singleton] at hq
    subst hq; exact hr
  | some inter =>
    intro q hq
    simp only [List.mem_filter, Bool.and_eq_true, decide_eq_true_eq] at hq
    obtain ⟨_, h1, h2⟩ := hq
    exact ⟨by omega, by omega⟩

theorem mask_rect_length_le (r other : Rect) :
    (mask_rect r other).length ≤ 4 := by
  unfold mask_rect
  cases h : Rect.intersection r other with
  | none => simp
  | some inter =>
    have := List.length_filter_le
      (fun q : Rect => decide (0 < q.x2 - q.x1) && decide (0 < q.y2 - q.y1))
      [⟨r.x1, r.y1, inter.x1, inter.y2⟩,
       ⟨inter.x1, r.y1, r.x2, inter.y1⟩,
       ⟨inter.x2, inter.y1, r.x2, r.y2⟩,
       ⟨r.x1, inter.y2, inter.x2, r.y2⟩]
    simpa using this

/-- The pixel-disjointness relation between two rectangles. -/
def RectDisjoint (a b : Rect) : Prop := ∀ x y : Int, ¬ (a.memPt x y ∧ b.memPt x y)

/-- The residuals produced by one masking step are pairwise disjoint. -/
theorem mask_rect_pairwise (r other : Rect) :
    (mask_rect r other).Pairwise RectDisjoint := by
  unfold mask_rect
  cases h : Rect.intersection r other with
  | none => simp [RectDisjoint]
  | some inter =>
    rw [intersection_eq_some_iff] at h
    obtain ⟨hi, hw, hh⟩ := h
    subst hi
    apply List.Pairwise.sublist (List.filter_sublist _)
    refine List.Pairwise.cons ?_ (List.Pairwise.cons ?_
      (List.Pairwise.cons ?_ (List.pairwise_singleton _ _)))
    · intro b hb x y hxy
      simp only [List.mem_cons, List.not_mem_nil, or_false] at hb
      rcases hb with rfl | rfl | rfl <;>
        (unfold Rect.memPt at hxy; simp only at hxy; omega)
    · intro b hb x y hxy
      simp only [List.mem_cons, List.not_mem_nil, or_false] at hb
      rcases hb with rfl | rfl <;>
        (unfold Rect.memPt at hxy; simp only at hxy; omega)
    · intro b hb x y hxy
      simp only [List.mem_cons, List.not_mem_nil, or_false] at hb
      rcases hb with rfl
      unfold Rect.memPt at hxy; simp only at hxy; omega

end RectLemmas

/-- Claim C2 theorem. For every non-empty rectangle `r` and every mask `M`,
`SplitRect::mask_rect` is an exact decomposition of `r` minus `M`: a point
lies in some member iff it lies in `r` (closed-open) and not in `M`, the
members are pairwise disjoint and non-empty, and there are at most four. -/
theorem mask_rect_exact_decomposition (r M : Rect)
    (hx : r.x1 < r.x2) (hy : r.y1 < r.y2) :
    (∀ x y : Int, SplitRect.coveredPt (SplitRect.mask_rect r M) x y ↔
        (r.memPt x y ∧ ¬ M.memPt x y)) ∧
    (SplitRect.mask_rect r M).Pairwise RectDisjoint ∧
    (∀ q ∈ SplitRect.mask_rect r M, q.posRect) ∧
    (SplitRect.mask_rect r M).length ≤ 4 :=
  ⟨fun x y => mask_rect_coveredPt r M x y,
   mask_rect_pairwise r M,
   mask_rect_posRect r M ⟨hx, hy⟩,
   mask_rect_length_le r M⟩

/-- Witness for C2 at `r = (0,0,10,10)`, `M = (2,2,5,5)`. -/
theorem mask_rect_exact_decomposition_witness :
    ((0 : Int) < 10 ∧ (0 : Int) < 10) ∧
    ((∀ x y : Int, SplitRect.coveredPt
          (SplitRect.mask_rect ⟨0, 0, 10, 10⟩ ⟨2, 2, 5, 5⟩) x y ↔
        (Rect.memPt ⟨0, 0, 10, 10⟩ x y ∧ ¬ Rect.memPt ⟨2, 2, 5, 5⟩ x y)) ∧
     (SplitRect.mask_rect ⟨0, 0, 10, 10⟩ ⟨2, 2, 5, 5⟩).Pairwise RectDisjoint ∧
     (∀ q ∈ SplitRect.mask_rect ⟨0, 0, 10, 10⟩ ⟨2, 2, 5, 5⟩, q.posRect) ∧
     (SplitRect.mask_rect ⟨0, 0, 10, 10⟩ ⟨2, 2, 5, 5⟩).length ≤ 4) :=
  ⟨⟨by decide, by decide⟩,
   mask_rect_exact_decomposition ⟨0, 0, 10, 10⟩ ⟨2, 2, 5, 5⟩ (by decide) (by decide)⟩

/-- Claim C7 counterexample: the rectangles `(0,0,1,1)` and `(1,0,2,1)`
share only an edge, so their closed-open overlap is empty
(`intersection` is `none`), yet `Rect::intersect` returns `true`. -/
theorem intersect_edge_touching_counterexample :
    Rect.intersect ⟨0, 0, 1, 1⟩ ⟨1, 0, 2, 1⟩ = true ∧
    Rect.intersection ⟨0, 0, 1, 1⟩ ⟨1, 0, 2, 1⟩ = none ∧
    ¬ (Rect.intersect ⟨0, 0, 1, 1⟩ ⟨1, 0, 2, 1⟩ = true ↔
        (∃ i, Rect.intersection ⟨0, 0, 1, 1⟩ ⟨1, 0, 2, 1⟩ = some i)) := by
  refine ⟨by decide, by decide, ?_⟩
  intro h
  have := h.mp (by decide)
  obtain ⟨i, hi⟩ := this
  simp [Rect.intersection] at hi

/-- Claim C7 amended theorem: for rectangles satisfying the data-model
well-formedness invariant `x1 ≤ x2 ∧ y1 ≤ y2`, `Rect::intersect` returns
true iff the closed (boundary-inclusive) overlap is non-empty, i.e. iff
some integer point lies in the closed extents of both rectangles;
`intersection` returning `some` implies `intersect`, but not conversely
(edge-touching rectangles satisfy `intersect` while `intersection` is
`none`). -/
theorem intersect_iff_closed_overlap (a b : Rect)
    (ha1 : a.x1 ≤ a.x2) (ha2 : a.y1 ≤ a.y2)
    (hb1 : b.x1 ≤ b.x2) (hb2 : b.y1 ≤ b.y2) :
    (Rect.intersect a b = true ↔
      ∃ x y : Int, (a.x1 ≤ x ∧ x ≤ a.x2 ∧ a.y1 ≤ y ∧ y ≤ a.y2) ∧
                   (b.x1 ≤ x ∧ x ≤ b.x2 ∧ b.y1 ≤ y ∧ y ≤ b.y2)) ∧
    (∀ i, Rect.intersection a b = some i → Rect.intersect a b = true) := by
  constructor
  · unfold Rect.intersect
    simp only [Bool.and_eq_true, decide_eq_true_eq]
    constructor
    · rintro ⟨⟨⟨h1, h2⟩, h3⟩, h4⟩
      exact ⟨max a.x1 b.x1, max a.y1 b.y1, by omega, by omega⟩
    · rintro ⟨x, y, ⟨ha, hb⟩⟩
      omega
  · intro i hi
    rw [intersection_eq_some_iff] at hi
    unfold Rect.intersect
    simp only [Bool.and_eq_true, decide_eq_true_eq]
    omega

/-- Witness for C7's amended theorem at `a = (0,0,1,1)`, `b = (1,0,2,1)`. -/
theorem intersect_iff_closed_overlap_witness :
    ((0:Int) ≤ 1 ∧ (0:Int) ≤ 1 ∧ (1:Int) ≤ 2 ∧ (0:Int) ≤ 1) ∧
    ((Rect.intersect ⟨0, 0, 1, 1⟩ ⟨1, 0, 2, 1⟩ = true ↔
      ∃ x y : Int, ((0:Int) ≤ x ∧ x ≤ 1 ∧ (0:Int) ≤ y ∧ y ≤ 1) ∧
                   ((1:Int) ≤ x ∧ x ≤ 2 ∧ (0:Int) ≤ y ∧ y ≤ 1)) ∧
    (∀ i, Rect.intersection ⟨0, 0, 1, 1⟩ ⟨1, 0, 2, 1⟩ = some i →
      Rect.intersect ⟨0, 0, 1, 1⟩ ⟨1, 0, 2, 1⟩ = true)) :=
  ⟨⟨by decide, by decide, by decide, by decide⟩,
   intersect_iff_closed_overlap ⟨0, 0, 1, 1⟩ ⟨1, 0, 2, 1⟩
     (by decide) (by decide) (by decide) (by decide)⟩

/-! The Z-ordered occlusion tree, `src/types/ztree.rs`.  The Rust
`BTreeMap<i32, ZNode>` is modelled as an association list sorted strictly
ascending by key; sortedness is carried as an explicit hypothesis where a
theorem needs it, and is re-established by `ZTree.insert`. -/

/-- `ZSurface`, the public surface record. -/
structure ZSurface where
  z_index : Int
  reference : String
  area : Rect
deriving DecidableEq, Repr

/-- `ZLeaf`: a stored surface with its (possibly split) visible area. -/
structure ZLeaf where
  reference : String
  area : SplitRect
deriving DecidableEq, Repr

namespace ZLeaf

/-- `ZLeaf::mask` (also the semantics of `ZLeaf::mask_in_place`): mask this
leaf with the bounding box of `other`, dropping it when nothing remains.
The `expect("Empty ZLeaf should not happen")` panic of the source is
modelled as `none`; on trees reachable by `insert` the bound always
exists (see the C10 theorem). -/
def mask (l other : ZLeaf) : Option ZLeaf :=
  match SplitRect.bounds other.area with
  | none => none
  | some b =>
    let area := SplitRect.mask_with l.area b
    if SplitRect.is_empty area then none else some ⟨l.reference, area⟩

end ZLeaf

/-- `ZNode`: one z-index bucket. -/
structure ZNode where
  leaves : List ZLeaf
deriving DecidableEq, Repr

/-- `ZNode::mask_all_in_place`: mask every leaf, retaining the non-empty
ones (Rust `retain_mut` keeps order). -/
def ZNode.mask_all (n : ZNode) (mask : ZLeaf) : ZNode :=
  ⟨n.leaves.filterMap (fun l => ZLeaf.mask l mask)⟩

/-- `ZTree`: buckets in strictly ascending key order. -/
structure ZTree where
  nodes : List (Int × ZNode)
deriving DecidableEq, Repr

namespace ZTree

/-- `ZTree::new`. -/
def new : ZTree := ⟨[]⟩

/-- The leaves of all buckets at z-index strictly greater than `z`, in
ascending key order — the Rust
`range((Bound::Excluded(z), Bound::Unbounded)).flat_map(|(_, n)| &n.leaves)`. -/
def upperLeaves (t : ZTree) (z : Int) : List ZLeaf :=
  (t.nodes.filter (fun kn => decide (z < kn.1))).flatMap (fun kn => kn.2.leaves)

/-- The strictly lower buckets (the part `split_off(&z)` leaves behind),
each masked against the newcomer by `mask_all_in_place` and dropped when
no leaf survives. -/
def lowerMasked (t : ZTree) (z : Int) (nl : ZLeaf) : List (Int × ZNode) :=
  (t.nodes.filter (fun kn => decide (kn.1 < z))).filterMap
    (fun kn => if (ZNode.mask_all kn.2 nl).leaves.isEmpty then none
               else some (kn.1, ZNode.mask_all kn.2 nl))

/-- The buckets at key ≥ z (the part `split_off(&z)` returns), with the
new leaf pushed onto the bucket at `z` — `entry(z).or_default()` creates
that bucket when absent. -/
def upperWithNew (t : ZTree) (z : Int) (nl : ZLeaf) : List (Int × ZNode) :=
  if (t.nodes.filter (fun kn => decide (z ≤ kn.1))).any
      (fun kn => decide (kn.1 = z))
  then (t.nodes.filter (fun kn => decide (z ≤ kn.1))).map
    (fun kn => if kn.1 = z then (kn.1, ZNode.mk (kn.2.leaves ++ [nl])) else kn)
  else (z, ZNode.mk [nl]) :: t.nodes.filter (fun kn => decide (z ≤ kn.1))

/-- `ZTree::insert`.  Phase 1 masks the newcomer against all strictly
higher leaves (`try_fold`); on survival, `split_off(&z)` separates the
strictly lower buckets (which are masked against the newcomer and
pruned) from the buckets at key ≥ z, the newcomer is appended to the
bucket at `z` (created if missing), and the tree is reassembled. -/
def insert (t : ZTree) (surface : ZSurface) : Bool × ZTree :=
  match (t.upperLeaves surface.z_index).foldlM ZLeaf.mask
      ⟨surface.reference, [surface.area]⟩ with
  | none => (false, t)
  | some new_leaf =>
    (true, ⟨t.lowerMasked surface.z_index new_leaf ++
            t.upperWithNew surface.z_index new_leaf⟩)

/-- `ZTree::flatten` / `From<ZTree> for Vec<ZSurface>`. -/
def flatten (t : ZTree) : List ZSurface :=
  t.nodes.flatMap (fun kn => kn.2.leaves.filterMap (fun l =>
    (SplitRect.bounds l.area).map (fun area => ZSurface.mk kn.1 l.reference area)))

end ZTree

/-- Insert a whole list of surfaces into a fresh tree, left to right —
the fold performed by `PixelManager::compute_hints`. -/
def buildTree (ss : List ZSurface) : ZTree :=
  ss.foldl (fun t s => (ZTree.insert t s).2) ZTree.new

/-- One `(z_index, leaf)` entry per leaf stored in the tree, in bucket
order. -/
def leafEntries (t : ZTree) : List (Int × ZLeaf) :=
  t.nodes.flatMap (fun kn => kn.2.leaves.map (fun l => (kn.1, l)))

/-- Every leaf in the tree has a non-empty (as a list) `SplitRect`. -/
def leavesNonempty (t : ZTree) : Prop :=
  ∀ kn ∈ t.nodes, ∀ l ∈ kn.2.leaves, l.area ≠ []

section ZTreeLemmas

theorem bounds_eq_none_iff (s : SplitRect) :
    SplitRect.bounds s = none ↔ s = [] := by
  unfold SplitRect.bounds
  split <;> simp_all

theorem mask_some_ne_nil {l u l' : ZLeaf} (h : ZLeaf.mask l u = some l') :
    l'.area ≠ [] := by
  unfold ZLeaf.mask at h
  cases hb : SplitRect.bounds u.area with
  | none => rw [hb] at h; cases h
  | some b =>
    rw [hb] at h
    simp only at h
    split at h
    · cases h
    · injection h with h
      subst h
      simp only [SplitRect.is_empty, List.isEmpty_iff] at *
      assumption

theorem foldlM_mask_some_ne_nil :
    ∀ (us : List ZLeaf) (l0 l : ZLeaf), l0.area ≠ [] →
      us.foldlM ZLeaf.mask l0 = some l → l.area ≠ [] := by
  intro us
  induction us with
  | nil =>
    intro l0 l h0 h
    simp only [List.foldlM_nil, pure, Option.some_inj] at h
    subst h; exact h0
  | cons u us ih =>
    intro l0 l h0 h
    simp only [List.foldlM_cons, Option.bind_eq_bind] at h
    cases hm : ZLeaf.mask l0 u with
    | none => rw [hm] at h; cases h
    | some l1 =>
      rw [hm] at h
      simp only [Option.some_bind] at h
      exact ih l1 l (mask_some_ne_nil hm) h

theorem insert_preserves_leavesNonempty (t : ZTree) (s : ZSurface)
    (h : leavesNonempty t) : leavesNonempty (ZTree.insert t s).2 := by
  unfold ZTree.insert
  cases hf : (t.upperLeaves s.z_index).foldlM ZLeaf.mask ⟨s.reference, [s.area]⟩ with
  | none => exact h
  | some nl =>
    have hnl : nl.area ≠ [] :=
      foldlM_mask_some_ne_nil _ _ nl (by simp) hf
    intro kn hkn l hl
    simp only [List.mem_append] at hkn
    rcases hkn with hkn | hkn
    · -- lower part: every retained leaf came out of `ZLeaf.mask … = some`
      simp only [ZTree.lowerMasked, List.mem_filterMap] at hkn
      obtain ⟨kn0, hkn0, hsome⟩ := hkn
      split at hsome
      · cases hsome
      · injection hsome with hsome
        subst hsome
        simp only [ZNode.mask_all, List.mem_filterMap] at hl
        obtain ⟨l0, _, hm⟩ := hl
        exact mask_some_ne_nil hm
    · -- upper part: untouched old leaves, or the appended new leaf
      simp only [ZTree.upperWithNew] at hkn
      split at hkn
      · simp only [List.mem_map] at hkn
        obtain ⟨kn0, hkn0, heq⟩ := hkn
        have hkn0' := List.mem_filter.mp hkn0
        split at heq
        · subst heq
          simp only [List.mem_append, List.mem_singleton] at hl
          rcases hl with hl | rfl
          · exact h kn0 hkn0'.1 l hl
          · exact hnl
        · subst heq
          exact h kn0 hkn0'.1 l hl
      · simp only [List.mem_cons] at hkn
        rcases hkn with rfl | hkn
        · simp only [List.mem_singleton] at hl
          subst hl; exact hnl
        · have hkn' := List.mem_filter.mp hkn
          exact h kn hkn'.1 l hl

theorem buildTree_preserves (P : ZTree → Prop) (h0 : P ZTree.new)
    (hstep : ∀ t s, P t → P (ZTree.insert t s).2) :
    ∀ ss : List ZSurface, P (buildTree ss) := by
  have main : ∀ (ss : List ZSurface) (t : ZTree), P t →
      P (ss.foldl (fun t s => (ZTree.insert t s).2) t) := by
    intro ss
    induction ss with
    | nil => intro t ht; exact ht
    | cons s ss ih =>
      intro t ht
      exact ih _ (hstep t s ht)
  intro ss
  exact main ss ZTree.new h0

theorem flatten_block_length (z : Int) (ls : List ZLeaf)
    (h : ∀ l ∈ ls, l.area ≠ []) :
    (ls.filterMap (fun l => (SplitRect.bounds l.area).map
      (fun area => ZSurface.mk z l.reference area))).length = ls.length := by
  induction ls with
  | nil => rfl
  | cons l ls ih =>
    have hl : l.area ≠ [] := h l (by simp)
    cases hb : SplitRect.bounds l.area with
    | none => exact absurd ((bounds_eq_none_iff _).mp hb) hl
    | some b =>
      rw [List.filterMap_cons, hb]
      simp only [Option.map_some']
      simp only [List.length_cons]
      rw [ih (fun l' hl' => h l' (List.mem_cons_of_mem _ hl'))]

theorem flatten_length_eq (ns : List (Int × ZNode))
    (h : ∀ kn ∈ ns, ∀ l ∈ kn.2.leaves, l.area ≠ []) :
    (ns.flatMap fun kn => kn.2.leaves.filterMap (fun l =>
      (SplitRect.bounds l.area).map
        (fun area => ZSurface.mk kn.1 l.reference area))).length
      = (ns.flatMap fun kn => kn.2.leaves.map (fun l => (kn.1, l))).length := by
  induction ns with
  | nil => rfl
  | cons kn ns ih =>
    simp only [List.flatMap_cons, List.length_append, List.length_map]
    rw [flatten_block_length kn.1 kn.2.leaves (h kn (List.mem_cons_self _ _)),
      ih (fun kn' h' l hl => h kn' (List.mem_cons_of_mem _ h') l hl)]

end ZTreeLemmas

/-- Claim C10 theorem. On every tree reachable from the empty tree by
`insert`, all stored leaves have a non-empty `SplitRect`, so
`SplitRect::bounds` is always `some` (the `expect("Empty ZLeaf should
not happen")` calls cannot fire) and `flatten` emits exactly one surface
per leaf (its defensive skipping of empty leaves never drops anything). -/
theorem reachable_ztree_leaves_nonempty (ss : List ZSurface) :
    leavesNonempty (buildTree ss) ∧
    (∀ kn ∈ (buildTree ss).nodes, ∀ l ∈ kn.2.leaves,
      SplitRect.bounds l.area ≠ none) ∧
    (ZTree.flatten (buildTree ss)).length = (leafEntries (buildTree ss)).length := by
  have hne : leavesNonempty (buildTree ss) := by
    refine buildTree_preserves leavesNonempty ?_ insert_preserves_leavesNonempty ss
    intro kn hkn
    simp [ZTree.new] at hkn
  refine ⟨hne, ?_, ?_⟩
  · intro kn hkn l hl hb
    exact hne kn hkn l hl ((bounds_eq_none_iff _).mp hb)
  · unfold ZTree.flatten leafEntries
    exact flatten_length_eq _ hne

/-- Claim C6 theorem. When masking the newcomer against all strictly
higher leaves leaves nothing (the `try_fold` returns `None`), `insert`
returns `false` and the tree is returned exactly as it was. -/
theorem insert_hidden_returns_false_tree_unchanged (t : ZTree) (s : ZSurface)
    (h : (t.upperLeaves s.z_index).foldlM ZLeaf.mask
        ⟨s.reference, [s.area]⟩ = none) :
    ZTree.insert t s = (false, t) := by
  unfold ZTree.insert
  rw [h]

/-- Witness for C6: a surface at z = 0 fully covered by a single leaf at
z = 1 is rejected and the tree is unchanged. -/
theorem insert_hidden_returns_false_tree_unchanged_witness :
    ((ZTree.mk [(1, ZNode.mk [ZLeaf.mk "upper" [⟨0, 0, 100, 100⟩]])]).upperLeaves 0).foldlM
        ZLeaf.mask ⟨"lower", [⟨10, 10, 20, 20⟩]⟩ = none ∧
    ZTree.insert (ZTree.mk [(1, ZNode.mk [ZLeaf.mk "upper" [⟨0, 0, 100, 100⟩]])])
        ⟨0, "lower", ⟨10, 10, 20, 20⟩⟩ =
      (false, ZTree.mk [(1, ZNode.mk [ZLeaf.mk "upper" [⟨0, 0, 100, 100⟩]])]) :=
  ⟨by decide,
   insert_hidden_returns_false_tree_unchanged
     (ZTree.mk [(1, ZNode.mk [ZLeaf.mk "upper" [⟨0, 0, 100, 100⟩]])])
     ⟨0, "lower", ⟨10, 10, 20, 20⟩⟩ (by decide)⟩

section InsertShape

theorem insert_eq_of_fold_some (t : ZTree) (s : ZSurface) (nl : ZLeaf)
    (hfold : (t.upperLeaves s.z_index).foldlM ZLeaf.mask
        ⟨s.reference, [s.area]⟩ = some nl) :
    ZTree.insert t s =
      (true, ⟨t.lowerMasked s.z_index nl ++ t.upperWithNew s.z_index nl⟩) := by
  unfold ZTree.insert
  rw [hfold]

theorem lowerMasked_keys (t : ZTree) (z : Int) (nl : ZLeaf) :
    ∀ kn ∈ t.lowerMasked z nl, kn.1 < z := by
  intro kn h
  simp only [ZTree.lowerMasked, List.mem_filterMap] at h
  obtain ⟨kn0, h0, hs⟩ := h
  have hk := (List.mem_filter.mp h0).2
  split at hs
  · cases hs
  · injection hs with hs
    subst hs
    simpa using hk

theorem upperWithNew_keys (t : ZTree) (z : Int) (nl : ZLeaf) :
    ∀ kn ∈ t.upperWithNew z nl, z ≤ kn.1 := by
  intro kn h
  simp only [ZTree.upperWithNew] at h
  split at h
  · simp only [List.mem_map] at h
    obtain ⟨kn0, h0, heq⟩ := h
    have hk := (List.mem_filter.mp h0).2
    split at heq <;> (subst heq; simpa using hk)
  · simp only [List.mem_cons] at h
    rcases h with rfl | h
    · simp
    · have hk := (List.mem_filter.mp h).2
      simpa using hk

theorem filter_key_eq_singleton {l : List (Int × ZNode)} {kn : Int × ZNode}
    (hs : l.Pairwise (fun a b => a.1 < b.1)) (hmem : kn ∈ l) :
    l.filter (fun x => decide (x.1 = kn.1)) = [kn] := by
  induction l with
  | nil => cases hmem
  | cons a l ih =>
    rw [List.pairwise_cons] at hs
    rcases List.mem_cons.mp hmem with rfl | hmem'
    · rw [List.filter_cons_of_pos (by simp)]
      congr 1
      rw [List.filter_eq_nil]
      intro b hb
      have := hs.1 b hb
      simp only [decide_eq_true_eq]
      omega
    · rw [List.filter_cons_of_neg ?_]
      · exact ih hs.2 hmem'
      · have := hs.1 kn hmem'
        simp only [decide_eq_true_eq]
        omega

end InsertShape

/-- Claim C3 counterexample. Two overlapping surfaces at the same z-index
`0`, inserted one after the other: under the claim the second insert
would mask the first leaf with the newcomer's bounding box `(0,0,10,10)`
(emptying and removing it, so only `"b"` would be emitted), but the code
moves the equal-z bucket to the untouched upper part, so both leaves
survive in full. -/
theorem insert_equal_z_not_masked_counterexample :
    ZTree.flatten (buildTree
        [⟨0, "a", ⟨0, 0, 10, 10⟩⟩, ⟨0, "b", ⟨0, 0, 10, 10⟩⟩]) =
      [⟨0, "a", ⟨0, 0, 10, 10⟩⟩, ⟨0, "b", ⟨0, 0, 10, 10⟩⟩] ∧
    SplitRect.is_empty
      (SplitRect.mask_with [(⟨0, 0, 10, 10⟩ : Rect)] ⟨0, 0, 10, 10⟩) = true ∧
    ¬ (∀ zs ∈ ZTree.flatten (buildTree
        [⟨0, "a", ⟨0, 0, 10, 10⟩⟩, ⟨0, "b", ⟨0, 0, 10, 10⟩⟩]),
        zs.reference = "b") := by
  refine ⟨by decide, by decide, ?_⟩
  intro h
  have := h ⟨0, "a", ⟨0, 0, 10, 10⟩⟩ (by decide)
  simp at this

/-- Claim C3 amended theorem. When `insert` succeeds at z-index `z`,
every existing leaf at z-index *strictly less than* `z` is masked with
the bounding box of the newcomer's visible SplitRect (buckets emptied by
the masking are removed); the bucket at z-index *equal to* `z`, if any,
keeps its old leaves completely unmasked and merely has the newcomer
appended — so when two surfaces share the same z-index and overlap,
neither masks the other. -/
theorem insert_masks_only_strictly_lower (t : ZTree) (s : ZSurface) (nl : ZLeaf)
    (hsorted : t.nodes.Pairwise (fun a b => a.1 < b.1))
    (hfold : (t.upperLeaves s.z_index).foldlM ZLeaf.mask
        ⟨s.reference, [s.area]⟩ = some nl) :
    (ZTree.insert t s).1 = true ∧
    ((ZTree.insert t s).2.nodes.filter (fun kn => decide (kn.1 < s.z_index)) =
      (t.nodes.filter (fun kn => decide (kn.1 < s.z_index))).filterMap
        (fun kn => if (ZNode.mask_all kn.2 nl).leaves.isEmpty then none
                   else some (kn.1, ZNode.mask_all kn.2 nl))) ∧
    (∀ kn ∈ t.nodes, kn.1 = s.z_index →
      (ZTree.insert t s).2.nodes.filter (fun kn2 => decide (kn2.1 = s.z_index)) =
        [(s.z_index, ZNode.mk (kn.2.leaves ++ [nl]))]) := by
  rw [insert_eq_of_fold_some t s nl hfold]
  refine ⟨rfl, ?_, ?_⟩
  · simp only [List.filter_append]
    have h1 : (t.lowerMasked s.z_index nl).filter
        (fun kn => decide (kn.1 < s.z_index)) = t.lowerMasked s.z_index nl := by
      rw [List.filter_eq_self]
      intro kn hkn
      simpa using lowerMasked_keys t s.z_index nl kn hkn
    have h2 : (t.upperWithNew s.z_index nl).filter
        (fun kn => decide (kn.1 < s.z_index)) = [] := by
      rw [List.filter_eq_nil]
      intro kn hkn
      have := upperWithNew_keys t s.z_index nl kn hkn
      simp only [decide_eq_true_eq]
      omega
    rw [h1, h2, List.append_nil]
    rfl
  · intro kn hkn hz
    simp only [List.filter_append]
    have h1 : (t.lowerMasked s.z_index nl).filter
        (fun kn2 => decide (kn2.1 = s.z_index)) = [] := by
      rw [List.filter_eq_nil]
      intro kn2 hkn2
      have := lowerMasked_keys t s.z_index nl kn2 hkn2
      simp only [decide_eq_true_eq]
      omega
    rw [h1, List.nil_append]
    have hany : (t.nodes.filter (fun kn2 => decide (s.z_index ≤ kn2.1))).any
        (fun kn2 => decide (kn2.1 = s.z_index)) = true := by
      rw [List.any_eq_true]
      exact ⟨kn, List.mem_filter.mpr ⟨hkn, by simp; omega⟩, by simpa using hz⟩
    unfold ZTree.upperWithNew
    rw [if_pos hany]
    rw [List.filter_map]
    have hp : ((fun kn2 : Int × ZNode => decide (kn2.1 = s.z_index)) ∘
        (fun kn2 : Int × ZNode => if kn2.1 = s.z_index
            then (kn2.1, ZNode.mk (kn2.2.leaves ++ [nl])) else kn2)) =
        (fun kn2 : Int × ZNode => decide (kn2.1 = s.z_index)) := by
      funext kn2
      by_cases h : kn2.1 = s.z_index <;> simp [Function.comp, h]
    rw [hp]
    have hff : (t.nodes.filter (fun kn2 => decide (s.z_index ≤ kn2.1))).filter
        (fun kn2 => decide (kn2.1 = s.z_index)) =
        t.nodes.filter (fun kn2 => decide (kn2.1 = kn.1)) := by
      rw [List.filter_filter]
      apply List.filter_congr
      intro kn2 _
      by_cases h : kn2.1 = s.z_index <;> simp [h, hz]
    rw [hff, filter_key_eq_singleton hsorted hkn, List.map_cons, List.map_nil]
    rw [if_pos hz, hz]

/-- Witness for C3's amended theorem: a tree with buckets at z = 0 and
z = 1, inserting a second surface at z = 1. -/
theorem insert_masks_only_strictly_lower_witness :
    ((ZTree.mk [(0, ZNode.mk [ZLeaf.mk "low" [⟨0, 0, 5, 5⟩]]),
                (1, ZNode.mk [ZLeaf.mk "a" [⟨0, 0, 10, 10⟩]])]).nodes.Pairwise
        (fun a b => a.1 < b.1) ∧
      ((ZTree.mk [(0, ZNode.mk [ZLeaf.mk "low" [⟨0, 0, 5, 5⟩]]),
                  (1, ZNode.mk [ZLeaf.mk "a" [⟨0, 0, 10, 10⟩]])]).upperLeaves 1).foldlM
          ZLeaf.mask ⟨"b", [⟨0, 0, 10, 10⟩]⟩ = some (ZLeaf.mk "b" [⟨0, 0, 10, 10⟩])) ∧
    ((ZTree.insert (ZTree.mk [(0, ZNode.mk [ZLeaf.mk "low" [⟨0, 0, 5, 5⟩]]),
                  (1, ZNode.mk [ZLeaf.mk "a" [⟨0, 0, 10, 10⟩]])])
        ⟨1, "b", ⟨0, 0, 10, 10⟩⟩).1 = true ∧
     ((ZTree.insert (ZTree.mk [(0, ZNode.mk [ZLeaf.mk "low" [⟨0, 0, 5, 5⟩]]),
                  (1, ZNode.mk [ZLeaf.mk "a" [⟨0, 0, 10, 10⟩]])])
        ⟨1, "b", ⟨0, 0, 10, 10⟩⟩).2.nodes.filter (fun kn => decide (kn.1 < (1:Int))) =
      ((ZTree.mk [(0, ZNode.mk [ZLeaf.mk "low" [⟨0, 0, 5, 5⟩]]),
                  (1, ZNode.mk [ZLeaf.mk "a" [⟨0, 0, 10, 10⟩]])]).nodes.filter
          (fun kn => decide (kn.1 < (1:Int)))).filterMap
        (fun kn => if (ZNode.mask_all kn.2 (ZLeaf.mk "b" [⟨0, 0, 10, 10⟩])).leaves.isEmpty
                   then none
                   else some (kn.1, ZNode.mask_all kn.2 (ZLeaf.mk "b" [⟨0, 0, 10, 10⟩])))) ∧
     (∀ kn ∈ (ZTree.mk [(0, ZNode.mk [ZLeaf.mk "low" [⟨0, 0, 5, 5⟩]]),
                  (1, ZNode.mk [ZLeaf.mk "a" [⟨0, 0, 10, 10⟩]])]).nodes, kn.1 = (1:Int) →
      (ZTree.insert (ZTree.mk [(0, ZNode.mk [ZLeaf.mk "low" [⟨0, 0, 5, 5⟩]]),
                  (1, ZNode.mk [ZLeaf.mk "a" [⟨0, 0, 10, 10⟩]])])
        ⟨1, "b", ⟨0, 0, 10, 10⟩⟩).2.nodes.filter (fun kn2 => decide (kn2.1 = (1:Int))) =
        [((1:Int), ZNode.mk (kn.2.leaves ++ [ZLeaf.mk "b" [⟨0, 0, 10, 10⟩]]))])) :=
  ⟨⟨by decide, by decide⟩,
   insert_masks_only_strictly_lower
     (ZTree.mk [(0, ZNode.mk [ZLeaf.mk "low" [⟨0, 0, 5, 5⟩]]),
                (1, ZNode.mk [ZLeaf.mk "a" [⟨0, 0, 10, 10⟩]])])
     ⟨1, "b", ⟨0, 0, 10, 10⟩⟩ (ZLeaf.mk "b" [⟨0, 0, 10, 10⟩])
     (by decide) (by decide)⟩

section FlattenContract

theorem flatten_block_eq_map (z : Int) (ls : List ZLeaf)
    (h : ∀ l ∈ ls, l.area ≠ []) :
    ls.filterMap (fun l => (SplitRect.bounds l.area).map
      (fun area => ZSurface.mk z l.reference area)) =
    ls.map (fun l => ZSurface.mk z l.reference
      ((SplitRect.bounds l.area).getD ⟨0, 0, 0, 0⟩)) := by
  induction ls with
  | nil => rfl
  | cons l ls ih =>
    have hl : l.area ≠ [] := h l (List.mem_cons_self _ _)
    cases hb : SplitRect.bounds l.area with
    | none => exact absurd ((bounds_eq_none_iff _).mp hb) hl
    | some b =>
      rw [List.filterMap_cons, hb, List.map_cons]
      simp only [Option.map_some', Option.getD_some, hb]
      rw [ih (fun l' hl' => h l' (List.mem_cons_of_mem _ hl'))]

theorem flatten_eq_map (ns : List (Int × ZNode))
    (h : ∀ kn ∈ ns, ∀ l ∈ kn.2.leaves, l.area ≠ []) :
    ZTree.flatten ⟨ns⟩ = (leafEntries ⟨ns⟩).map (fun zl =>
      ZSurface.mk zl.1 zl.2.reference
        ((SplitRect.bounds zl.2.area).getD ⟨0, 0, 0, 0⟩)) := by
  induction ns with
  | nil => rfl
  | cons kn ns ih =>
    unfold ZTree.flatten leafEntries at *
    simp only [List.flatMap_cons, List.map_append, List.map_map]
    rw [flatten_block_eq_map kn.1 kn.2.leaves (h kn (List.mem_cons_self _ _)),
      ih (fun kn' h' l hl => h kn' (List.mem_cons_of_mem _ h') l hl)]
    rfl

theorem flatten_z_mem (t : ZTree) :
    ∀ zs ∈ ZTree.flatten t, ∃ kn ∈ t.nodes, zs.z_index = kn.1 := by
  intro zs h
  unfold ZTree.flatten at h
  simp only [List.mem_flatMap, List.mem_filterMap] at h
  obtain ⟨kn, hkn, l, _, hsome⟩ := h
  refine ⟨kn, hkn, ?_⟩
  rw [Option.map_eq_some'] at hsome
  obtain ⟨a, _, heq⟩ := hsome
  rw [← heq]

theorem pairwise_le_of_all_eq {l : List Int} {c : Int} (h : ∀ v ∈ l, v = c) :
    l.Pairwise (· ≤ ·) := by
  induction l with
  | nil => exact List.Pairwise.nil
  | cons a l ih =>
    refine List.Pairwise.cons ?_ (ih (fun v hv => h v (List.mem_cons_of_mem _ hv)))
    intro b hb
    rw [h a (List.mem_cons_self _ _), h b (List.mem_cons_of_mem _ hb)]

theorem flatten_z_sorted (ns : List (Int × ZNode))
    (hs : ns.Pairwise (fun a b => a.1 < b.1)) :
    ((ZTree.flatten ⟨ns⟩).map ZSurface.z_index).Pairwise (· ≤ ·) := by
  induction ns with
  | nil => exact List.Pairwise.nil
  | cons kn ns ih =>
    rw [List.pairwise_cons] at hs
    unfold ZTree.flatten
    simp only [List.flatMap_cons, List.map_append]
    rw [List.pairwise_append]
    have hblock : ∀ v ∈ (kn.2.leaves.filterMap (fun l =>
        (SplitRect.bounds l.area).map
          (fun area => ZSurface.mk kn.1 l.reference area))).map ZSurface.z_index,
        v = kn.1 := by
      intro v hv
      simp only [List.mem_map, List.mem_filterMap] at hv
      obtain ⟨zs, ⟨l, _, hsome⟩, hz⟩ := hv
      rw [Option.map_eq_some'] at hsome
      obtain ⟨a, _, heq⟩ := hsome
      rw [← hz, ← heq]
    refine ⟨pairwise_le_of_all_eq hblock, ih hs.2, ?_⟩
    intro a ha b hb
    rw [hblock a ha]
    simp only [List.mem_map] at hb
    obtain ⟨zs, hzs, hz⟩ := hb
    obtain ⟨kn', hkn', hzk⟩ := flatten_z_mem ⟨ns⟩ zs hzs
    have := hs.1 kn' hkn'
    omega

end FlattenContract

/-- Claim C4 theorem. On a tree whose leaves all carry a non-empty
SplitRect and whose buckets are in strictly ascending key order (both
hold on every tree built by `insert`, see C10), `flatten` emits exactly
one `ZSurface` per stored leaf — with that leaf's reference and the
bounding box of its SplitRect — in bucket order, so the emitted z-indices
are ascending (ties only inside a bucket, in insertion order). -/
theorem flatten_contract (t : ZTree)
    (hne : ∀ kn ∈ t.nodes, ∀ l ∈ kn.2.leaves, l.area ≠ [])
    (hsorted : t.nodes.Pairwise (fun a b => a.1 < b.1)) :
    ZTree.flatten t = (leafEntries t).map (fun zl =>
      ZSurface.mk zl.1 zl.2.reference
        ((SplitRect.bounds zl.2.area).getD ⟨0, 0, 0, 0⟩)) ∧
    (∀ zl ∈ leafEntries t, SplitRect.bounds zl.2.area ≠ none) ∧
    ((ZTree.flatten t).map ZSurface.z_index).Pairwise (· ≤ ·) := by
  obtain ⟨ns⟩ := t
  refine ⟨flatten_eq_map ns hne, ?_, flatten_z_sorted ns hsorted⟩
  intro zl hzl hnone
  simp only [leafEntries, List.mem_flatMap, List.mem_map] at hzl
  obtain ⟨kn, hkn, l, hl, heq⟩ := hzl
  rw [bounds_eq_none_iff] at hnone
  exact hne kn hkn l hl (by rw [← heq] at hnone; exact hnone)

/-- Witness for C4 on a two-bucket tree. -/
theorem flatten_contract_witness :
    ((∀ kn ∈ (ZTree.mk [(0, ZNode.mk [ZLeaf.mk "low" [⟨0, 0, 5, 5⟩]]),
        (1, ZNode.mk [ZLeaf.mk "a" [⟨0, 0, 10, 10⟩]])]).nodes,
        ∀ l ∈ kn.2.leaves, l.area ≠ []) ∧
     (ZTree.mk [(0, ZNode.mk [ZLeaf.mk "low" [⟨0, 0, 5, 5⟩]]),
        (1, ZNode.mk [ZLeaf.mk "a" [⟨0, 0, 10, 10⟩]])]).nodes.Pairwise
        (fun a b => a.1 < b.1)) ∧
    (ZTree.flatten (ZTree.mk [(0, ZNode.mk [ZLeaf.mk "low" [⟨0, 0, 5, 5⟩]]),
        (1, ZNode.mk [ZLeaf.mk "a" [⟨0, 0, 10, 10⟩]])]) =
      (leafEntries (ZTree.mk [(0, ZNode.mk [ZLeaf.mk "low" [⟨0, 0, 5, 5⟩]]),
        (1, ZNode.mk [ZLeaf.mk "a" [⟨0, 0, 10, 10⟩]])])).map (fun zl =>
        ZSurface.mk zl.1 zl.2.reference
          ((SplitRect.bounds zl.2.area).getD ⟨0, 0, 0, 0⟩)) ∧
     (∀ zl ∈ leafEntries (ZTree.mk [(0, ZNode.mk [ZLeaf.mk "low" [⟨0, 0, 5, 5⟩]]),
        (1, ZNode.mk [ZLeaf.mk "a" [⟨0, 0, 10, 10⟩]])]),
        SplitRect.bounds zl.2.area ≠ none) ∧
     ((ZTree.flatten (ZTree.mk [(0, ZNode.mk [ZLeaf.mk "low" [⟨0, 0, 5, 5⟩]]),
        (1, ZNode.mk [ZLeaf.mk "a" [⟨0, 0, 10, 10⟩]])])).map
          ZSurface.z_index).Pairwise (· ≤ ·)) :=
  ⟨⟨by decide, by decide⟩,
   flatten_contract (ZTree.mk [(0, ZNode.mk [ZLeaf.mk "low" [⟨0, 0, 5, 5⟩]]),
     (1, ZNode.mk [ZLeaf.mk "a" [⟨0, 0, 10, 10⟩]])]) (by decide) (by decide)⟩

/-! The packed rendering hint, `src/types/rockchip_ebc.rs`.  The `u8`
payload is a `Nat` (all operations stay below 256 by construction). -/

/-- `HintBitDepth` (`#[repr(u8)]`: Y1 = 0, Y2 = 1, Y4 = 2). -/
inductive HintBitDepth
  | Y1
  | Y2
  | Y4
deriving DecidableEq, Repr

/-- The discriminant of a `HintBitDepth`. -/
def HintBitDepth.toU8 : HintBitDepth → Nat
  | .Y1 => 0
  | .Y2 => 1
  | .Y4 => 2

/-- `HintBitDepth::try_from_primitive`. -/
def HintBitDepth.try_from_primitive : Nat → Option HintBitDepth
  | 0 => some .Y1
  | 1 => some .Y2
  | 2 => some .Y4
  | _ => none

/-- `HintConvertMode` (`#[repr(u8)]`: Threshold = 0, Dither = 1). -/
inductive HintConvertMode
  | Threshold
  | Dither
deriving DecidableEq, Repr

/-- The discriminant of a `HintConvertMode`. -/
def HintConvertMode.toU8 : HintConvertMode → Nat
  | .Threshold => 0
  | .Dither => 1

/-- `HintConvertMode::try_from_primitive`. -/
def HintConvertMode.try_from_primitive : Nat → Option HintConvertMode
  | 0 => some .Threshold
  | 1 => some .Dither
  | _ => none

/-- The only error value `Hint::try_from_human_readable` produces
(`Error::Invalid`). -/
inductive HintError
  | invalid
deriving DecidableEq, Repr

/-- `Hint`: packed 8-bit triple. -/
structure Hint where
  repr : Nat
deriving DecidableEq, Repr

namespace Hint

/-- `Hint::new`: `bit_depth << 4 | convert_mode << 6 | redraw << 7`. -/
def new (bit_depth : HintBitDepth) (convert_mode : HintConvertMode)
    (redraw : Bool) : Hint :=
  ⟨(bit_depth.toU8 <<< 4) ||| (convert_mode.toU8 <<< 6) |||
   ((if redraw then 1 else 0) <<< 7)⟩

/-- `Hint::extract_bit_depth`: `(repr & 0x30) >> 4`. -/
def extract_bit_depth (r : Nat) : Nat := (r &&& (3 <<< 4)) >>> 4

/-- `Hint::extract_convert_mode`: `(repr & 0x40) >> 6`. -/
def extract_convert_mode (r : Nat) : Nat := (r &&& (1 <<< 6)) >>> 6

/-- `Hint::extract_redraw`: bit 7 is set. -/
def extract_redraw (r : Nat) : Bool := (r &&& (1 <<< 7)) >>> 7 ≠ 0

/-- `Hint::bit_depth`; the `expect` on an invalid stored discriminant is
modelled as `none` (it cannot fire on values built by `new`). -/
def bit_depth (h : Hint) : Option HintBitDepth :=
  HintBitDepth.try_from_primitive (extract_bit_depth h.repr)

/-- `Hint::convert_mode`; the `unwrap` is modelled as `none`. -/
def convert_mode (h : Hint) : Option HintConvertMode :=
  HintConvertMode.try_from_primitive (extract_convert_mode h.repr)

/-- `Hint::redraw`. -/
def redraw (h : Hint) : Bool := extract_redraw h.repr

/-- The `Display` implementation: `<depth>|<T or D>|<R or r>`. -/
def display (h : Hint) : Option String :=
  match h.bit_depth, h.convert_mode with
  | some bd, some cm =>
    some ((match bd with | .Y4 => "Y4" | .Y2 => "Y2" | .Y1 => "Y1") ++ "|" ++
          (match cm with | .Threshold => "T" | .Dither => "D") ++ "|" ++
          (if h.redraw then "R" else "r"))
  | _, _ => none

/-- Rust `str.split("|")` on the underlying character list: greedy split
at every `|`, keeping empty chunks (`"a||b"` gives three chunks, `""`
gives one).  Structural recursion is used so the definition reduces in
the kernel. -/
def splitPipe : List Char → List (List Char)
  | [] => [[]]
  | c :: rest =>
    if c = '|' then [] :: splitPipe rest
    else match splitPipe rest with
      | [] => [[c]]
      | g :: gs => (c :: g) :: gs

/-- The token stream `str.split("|")` of the source. -/
def tokens (str : String) : List String := (splitPipe str.data).map String.mk

/-- `Hint::try_from_human_readable`: split on `|`, fold the token loop
(`Err(Invalid)` aborts, matching the early `return`), then require a
bit depth. -/
def try_from_human_readable (str : String) : Except HintError Hint :=
  match (tokens str).foldlM
      (fun (st : Option HintBitDepth × HintConvertMode × Bool) token =>
        match token with
        | "Y4" => Except.ok (some HintBitDepth.Y4, st.2.1, st.2.2)
        | "Y2" => Except.ok (some HintBitDepth.Y2, st.2.1, st.2.2)
        | "Y1" => Except.ok (some HintBitDepth.Y1, st.2.1, st.2.2)
        | "T" => Except.ok (st.1, HintConvertMode.Threshold, st.2.2)
        | "D" => Except.ok (st.1, HintConvertMode.Dither, st.2.2)
        | "R" => Except.ok (st.1, st.2.1, true)
        | "r" => Except.ok (st.1, st.2.1, false)
        | _ => Except.error HintError.invalid)
      (none, HintConvertMode.Threshold, false) with
  | Except.error e => Except.error e
  | Except.ok (none, _, _) => Except.error HintError.invalid
  | Except.ok (some bd, cm, r) => Except.ok (new bd cm r)

end Hint

instance {ε α : Type} [DecidableEq ε] [DecidableEq α] : DecidableEq (Except ε α) :=
  fun x y =>
  match x, y with
  | .error a, .error b =>
    if h : a = b then isTrue (by rw [h])
    else isFalse (by intro hh; cases hh; exact h rfl)
  | .ok a, .ok b =>
    if h : a = b then isTrue (by rw [h])
    else isFalse (by intro hh; cases hh; exact h rfl)
  | .error _, .ok _ => isFalse (by intro hh; cases hh)
  | .ok _, .error _ => isFalse (by intro hh; cases hh)

/-- Claim C8 theorem. For each of the 12 valid (depth, convert, redraw)
combinations, formatting a `Hint` and parsing the result with
`try_from_human_readable` yields the original hint back; in particular
parsing `"Y4|D|R"` yields `Hint::new(Y4, Dither, true)`. -/
theorem hint_display_parse_roundtrip :
    (∀ (bd : HintBitDepth) (cm : HintConvertMode) (r : Bool),
      (Hint.display (Hint.new bd cm r)).map Hint.try_from_human_readable =
        some (Except.ok (Hint.new bd cm r))) ∧
    Hint.try_from_human_readable "Y4|D|R" =
      Except.ok (Hint.new HintBitDepth.Y4 HintConvertMode.Dither true) := by
  refine ⟨?_, by decide⟩
  intro bd cm r
  cases bd <;> cases cm <;> cases r <;> decide

/-! The window/application registry and the compositor,
`src/pixel_manager.rs`.  The two `HashMap`s are modelled as association
lists with unique keys (insertion conses a fresh entry; iteration order
of `windows.values()` is the list order, which no theorem relies on
beyond what the Rust iteration order guarantees). -/

/-- Association-list lookup, `HashMap::get`. -/
def lookupKey {α : Type} (m : List (String × α)) (k : String) : Option α :=
  (m.find? (fun p => p.1 == k)).map (fun p => p.2)

/-- `HashMap::contains_key`. -/
def containsKey {α : Type} (m : List (String × α)) (k : String) : Bool :=
  (m.find? (fun p => p.1 == k)).isSome

/-- `HashMap::remove` (drops the entry with the given key). -/
def removeKey {α : Type} (m : List (String × α)) (k : String) :
    List (String × α) :=
  m.filter (fun p => !(p.1 == k))

/-- `HashMap::entry(k).and_modify(f)`: modify the entry at `k` if present. -/
def modifyKey {α : Type} (m : List (String × α)) (k : String) (f : α → α) :
    List (String × α) :=
  m.map (fun p => if p.1 == k then (p.1, f p.2) else p)

/-- `WindowData`: the mutable per-window attributes. -/
structure WindowData where
  title : String
  area : Rect
  hint : Option Hint
  visible : Bool
  z_index : Int
deriving DecidableEq, Repr

/-- `Window`: uid, owning application key, and data. -/
structure Window where
  uid : String
  app_key : String
  data : WindowData
deriving DecidableEq, Repr

/-- `Application`: id, pid, default hint, and the uids of its windows
(`HashSet<String>`, modelled as a duplicate-free list). -/
structure Application where
  app_id : String
  pid : Int
  default_hint : Option Hint
  windows : List String
deriving DecidableEq, Repr

/-- `Application::key`: `"app_id:pid"`. -/
def Application.key (a : Application) : String :=
  a.app_id ++ ":" ++ toString a.pid

/-- `PixelManagerError`. -/
inductive PixelManagerError
  | UnknownApp (key : String)
  | UnknownWindow (key : String)
deriving DecidableEq, Repr

/-- `PixelManager`. -/
structure PixelManager where
  default_hint : Hint
  screen_area : Rect
  applications : List (String × Application)
  windows : List (String × Window)

namespace PixelManager

/-- `PixelManager::new`. -/
def new (default_hint : Hint) (screen_area : Rect) : PixelManager :=
  ⟨default_hint, screen_area, [], []⟩

/-- `PixelManager::app_add`: keep the existing entry when the key is
already present, return the key either way. -/
def app_add (pm : PixelManager) (app : Application) : String × PixelManager :=
  if containsKey pm.applications app.key then (app.key, pm)
  else (app.key, { pm with applications := (app.key, app) :: pm.applications })

/-- `PixelManager::app_remove`: drop the application and every window
listed in its window set. -/
def app_remove (pm : PixelManager) (app_key : String) : PixelManager :=
  match lookupKey pm.applications app_key with
  | none => pm
  | some app =>
    { pm with
      applications := removeKey pm.applications app_key,
      windows := pm.windows.filter (fun p => !(app.windows.contains p.1)) }

/-- `PixelManager::window_add`: fail on an unknown application, insert
the window if its uid is fresh, and attach the uid to the application's
window set. -/
def window_add (pm : PixelManager) (w : Window) :
    Except PixelManagerError (String × PixelManager) :=
  if !containsKey pm.applications w.app_key then
    Except.error (PixelManagerError.UnknownApp w.app_key)
  else if containsKey pm.windows w.uid then Except.ok (w.uid, pm)
  else Except.ok (w.uid,
    { pm with
      windows := (w.uid, w) :: pm.windows,
      applications := modifyKey pm.applications w.app_key
        (fun a => { a with windows :=
          if a.windows.contains w.uid then a.windows else w.uid :: a.windows }) })

/-- `PixelManager::window_remove`: drop the window and detach its uid
from its application's window set. -/
def window_remove (pm : PixelManager) (uid : String) : PixelManager :=
  match lookupKey pm.windows uid with
  | none => pm
  | some w =>
    { pm with
      windows := removeKey pm.windows uid,
      applications := modifyKey pm.applications w.app_key
        (fun a => { a with windows := a.windows.filter (fun u => !(u == uid)) }) }

/-- `PixelManager::window_update`: replace the window's data. -/
def window_update (pm : PixelManager) (uid : String) (data : WindowData) :
    Except PixelManagerError PixelManager :=
  if containsKey pm.windows uid then
    Except.ok
      { pm with
        windows := modifyKey pm.windows uid (fun w => { w with data := data }) }
  else Except.error (PixelManagerError.UnknownWindow uid)

/-- `PixelManager::window_hint_fallback`:
`window.hint ?? app.default_hint ?? global default`. -/
def window_hint_fallback (pm : PixelManager) (uid : String) :
    Except PixelManagerError Hint :=
  match lookupKey pm.windows uid with
  | none => Except.error (PixelManagerError.UnknownWindow uid)
  | some w =>
    match w.data.hint with
    | some h => Except.ok h
    | none =>
      match lookupKey pm.applications w.app_key with
      | none => Except.error (PixelManagerError.UnknownApp w.app_key)
      | some a => Except.ok (a.default_hint.getD pm.default_hint)

end PixelManager

/-- `Window::zsurface`: visible windows clipped to the screen. -/
def Window.zsurface (w : Window) (screen_area : Rect) : Option ZSurface :=
  if w.data.visible then
    (Rect.intersection w.data.area screen_area).map
      (fun rect => ZSurface.mk w.data.z_index w.uid rect)
  else none

/-- `RectHint`. -/
structure RectHint where
  rect : Rect
  hint : Hint
deriving DecidableEq, Repr

/-- `ComputedHints`. -/
structure ComputedHints where
  default_hint : Option Hint
  rect_hints : List RectHint
deriving DecidableEq, Repr

/-- The `collect::<Result<_, _>>` over the flattened surfaces: resolve
each surface's hint through the fallback chain, aborting at the first
error. -/
def collectRectHints (pm : PixelManager) :
    List ZSurface → Except PixelManagerError (List RectHint)
  | [] => Except.ok []
  | zs :: rest =>
    match pm.window_hint_fallback zs.reference with
    | Except.error e => Except.error e
    | Except.ok h =>
      match collectRectHints pm rest with
      | Except.error e => Except.error e
      | Except.ok rhs => Except.ok (RectHint.mk zs.area h :: rhs)

/-- `PixelManager::compute_hints`: fold the visible clipped windows into
a fresh ZTree, flatten it, and attach the effective hints. -/
def PixelManager.compute_hints (pm : PixelManager) :
    Except PixelManagerError ComputedHints :=
  match collectRectHints pm (ZTree.flatten (buildTree
      ((pm.windows.map (fun p => p.2)).filterMap
        (fun w => w.zsurface pm.screen_area)))) with
  | Except.error e => Except.error e
  | Except.ok rhs => Except.ok ⟨some pm.default_hint, rhs⟩

section ScreenContainment

theorem subRect_refl (r : Rect) : r.subRect r := by
  unfold Rect.subRect; omega

theorem subRect_trans {a b c : Rect} (h1 : a.subRect b) (h2 : b.subRect c) :
    a.subRect c := by
  unfold Rect.subRect at *
  omega

theorem intersection_subRect {a b i : Rect}
    (h : Rect.intersection a b = some i) : i.subRect a ∧ i.subRect b := by
  rw [intersection_eq_some_iff] at h
  obtain ⟨rfl, _, _⟩ := h
  constructor <;> (unfold Rect.subRect; simp only) <;> omega

theorem mask_with_sub (s : SplitRect) (M : Rect) :
    ∀ q' ∈ SplitRect.mask_with s M, ∃ q ∈ s, q'.subRect q := by
  intro q' hq'
  unfold SplitRect.mask_with at hq'
  simp only [List.mem_flatMap] at hq'
  obtain ⟨q, hq, hmem⟩ := hq'
  exact ⟨q, hq, mask_rect_subRect q M q' hmem⟩

theorem mask_leaf_sub {l u l' : ZLeaf} (h : ZLeaf.mask l u = some l') :
    ∀ q' ∈ l'.area, ∃ q ∈ l.area, q'.subRect q := by
  unfold ZLeaf.mask at h
  cases hb : SplitRect.bounds u.area with
  | none => rw [hb] at h; cases h
  | some b =>
    rw [hb] at h
    simp only at h
    split at h
    · cases h
    · injection h with h
      subst h
      exact mask_with_sub l.area b

theorem foldlM_mask_sub :
    ∀ (us : List ZLeaf) (l0 l : ZLeaf),
      us.foldlM ZLeaf.mask l0 = some l →
      ∀ q' ∈ l.area, ∃ q ∈ l0.area, q'.subRect q := by
  intro us
  induction us with
  | nil =>
    intro l0 l h q' hq'
    simp only [List.foldlM_nil, pure, Option.some_inj] at h
    subst h
    exact ⟨q', hq', subRect_refl q'⟩
  | cons u us ih =>
    intro l0 l h q' hq'
    simp only [List.foldlM_cons, Option.bind_eq_bind] at h
    cases hm : ZLeaf.mask l0 u with
    | none => rw [hm] at h; cases h
    | some l1 =>
      rw [hm] at h
      simp only [Option.some_bind] at h
      obtain ⟨q1, hq1, hsub1⟩ := ih l1 l h q' hq'
      obtain ⟨q0, hq0, hsub0⟩ := mask_leaf_sub hm q1 hq1
      exact ⟨q0, hq0, subRect_trans hsub1 hsub0⟩

/-- Every member rectangle of every stored leaf lies inside `R`. -/
def membersWithin (R : Rect) (t : ZTree) : Prop :=
  ∀ kn ∈ t.nodes, ∀ l ∈ kn.2.leaves, ∀ q ∈ l.area, q.subRect R

theorem insert_preserves_membersWithin (R : Rect) (t : ZTree) (s : ZSurface)
    (hs : s.area.subRect R) (h : membersWithin R t) :
    membersWithin R (ZTree.insert t s).2 := by
  unfold ZTree.insert
  cases hf : (t.upperLeaves s.z_index).foldlM ZLeaf.mask ⟨s.reference, [s.area]⟩ with
  | none => exact h
  | some nl =>
    have hnl : ∀ q ∈ nl.area, q.subRect R := by
      intro q hq
      obtain ⟨q0, hq0, hsub⟩ := foldlM_mask_sub _ _ nl hf q hq
      simp only [List.mem_singleton] at hq0
      subst hq0
      exact subRect_trans hsub hs
    intro kn hkn l hl q hq
    simp only [List.mem_append] at hkn
    rcases hkn with hkn | hkn
    · simp only [ZTree.lowerMasked, List.mem_filterMap] at hkn
      obtain ⟨kn0, hkn0, hsome⟩ := hkn
      split at hsome
      · cases hsome
      · injection hsome with hsome
        subst hsome
        simp only [ZNode.mask_all, List.mem_filterMap] at hl
        obtain ⟨l0, hl0, hm⟩ := hl
        obtain ⟨q0, hq0, hsub⟩ := mask_leaf_sub hm q hq
        have hkn0' := List.mem_filter.mp hkn0
        exact subRect_trans hsub (h kn0 hkn0'.1 l0 hl0 q0 hq0)
    · simp only [ZTree.upperWithNew] at hkn
      split at hkn
      · simp only [List.mem_map] at hkn
        obtain ⟨kn0, hkn0, heq⟩ := hkn
        have hkn0' := List.mem_filter.mp hkn0
        split at heq
        · subst heq
          simp only [List.mem_append, List.mem_singleton] at hl
          rcases hl with hl | rfl
          · exact h kn0 hkn0'.1 l hl q hq
          · exact hnl q hq
        · subst heq
          exact h kn0 hkn0'.1 l hl q hq
      · simp only [List.mem_cons] at hkn
        rcases hkn with rfl | hkn
        · simp only [List.mem_singleton] at hl
          subst hl
          exact hnl q hq
        · have hkn' := List.mem_filter.mp hkn
          exact h kn hkn'.1 l hl q hq

theorem buildTree_membersWithin (R : Rect) (ss : List ZSurface)
    (hs : ∀ s ∈ ss, s.area.subRect R) : membersWithin R (buildTree ss) := by
  have main : ∀ (ss : List ZSurface) (t : ZTree), (∀ s ∈ ss, s.area.subRect R) →
      membersWithin R t →
      membersWithin R (ss.foldl (fun t s => (ZTree.insert t s).2) t) := by
    intro ss
    induction ss with
    | nil => intro t _ ht; exact ht
    | cons s ss ih =>
      intro t hss ht
      exact ih _ (fun s' h' => hss s' (List.mem_cons_of_mem _ h'))
        (insert_preserves_membersWithin R t s (hss s (List.mem_cons_self _ _)) ht)
  refine main ss ZTree.new hs ?_
  intro kn hkn
  simp [ZTree.new] at hkn

theorem cover_eq_true_iff (a other : Rect) :
    Rect.cover a other = true ↔
      (a.x1 ≤ other.x1 ∧ a.y1 ≤ other.y1 ∧ other.x2 ≤ a.x2 ∧ other.y2 ≤ a.y2) := by
  unfold Rect.cover
  simp only [Bool.and_eq_true, decide_eq_true_eq]
  omega

theorem bounds_cover {R : Rect} {s : SplitRect} {b : Rect}
    (hsub : ∀ q ∈ s, q.subRect R) (hR : R.inI32Range)
    (hb : SplitRect.bounds s = some b) : Rect.cover R b = true := by
  unfold SplitRect.bounds at hb
  split at hb
  · cases hb
  · injection hb with hb
    rw [cover_eq_true_iff]
    subst hb
    have main : ∀ (l : List Rect) (acc : Rect), (∀ q ∈ l, q.subRect R) →
        (R.x1 ≤ acc.x1 ∧ R.y1 ≤ acc.y1 ∧ acc.x2 ≤ R.x2 ∧ acc.y2 ≤ R.y2) →
        (R.x1 ≤ (l.foldl (fun racc r => Rect.mk (min racc.x1 r.x1) (min racc.y1 r.y1)
            (max racc.x2 r.x2) (max racc.y2 r.y2)) acc).x1 ∧
         R.y1 ≤ (l.foldl (fun racc r => Rect.mk (min racc.x1 r.x1) (min racc.y1 r.y1)
            (max racc.x2 r.x2) (max racc.y2 r.y2)) acc).y1 ∧
         (l.foldl (fun racc r => Rect.mk (min racc.x1 r.x1) (min racc.y1 r.y1)
            (max racc.x2 r.x2) (max racc.y2 r.y2)) acc).x2 ≤ R.x2 ∧
         (l.foldl (fun racc r => Rect.mk (min racc.x1 r.x1) (min racc.y1 r.y1)
            (max racc.x2 r.x2) (max racc.y2 r.y2)) acc).y2 ≤ R.y2) := by
      intro l
      induction l with
      | nil => intro acc _ hacc; exact hacc
      | cons q l ih =>
        intro acc hsub' hacc
        simp only [List.foldl_cons]
        refine ih _ (fun q' h' => hsub' q' (List.mem_cons_of_mem _ h')) ?_
        have hq := hsub' q (List.mem_cons_self _ _)
        unfold Rect.subRect at hq
        simp only
        omega
    refine main s _ hsub ?_
    unfold Rect.inI32Range at hR
    simp only
    omega

theorem collectRectHints_mem (pm : PixelManager) :
    ∀ (l : List ZSurface) (rhs : List RectHint),
      collectRectHints pm l = Except.ok rhs →
      ∀ rh ∈ rhs, ∃ zs ∈ l, rh.rect = zs.area := by
  intro l
  induction l with
  | nil =>
    intro rhs h rh hrh
    unfold collectRectHints at h
    injection h with h
    subst h
    cases hrh
  | cons zs l ih =>
    intro rhs h rh hrh
    unfold collectRectHints at h
    cases hw : pm.window_hint_fallback zs.reference with
    | error e => rw [hw] at h; cases h
    | ok hint =>
      rw [hw] at h
      simp only at h
      cases hc : collectRectHints pm l with
      | error e => rw [hc] at h; cases h
      | ok rhs0 =>
        rw [hc] at h
        simp only at h
        injection h with h
        subst h
        simp only [List.mem_cons] at hrh
        rcases hrh with rfl | hrh
        · exact ⟨zs, List.mem_cons_self _ _, rfl⟩
        · obtain ⟨zs', hzs', heq⟩ := ih rhs0 hc rh hrh
          exact ⟨zs', List.mem_cons_of_mem _ hzs', heq⟩

theorem flatten_area_cover {R : Rect} {t : ZTree}
    (hm : membersWithin R t) (hR : R.inI32Range) :
    ∀ zs ∈ ZTree.flatten t, Rect.cover R zs.area = true := by
  intro zs h
  unfold ZTree.flatten at h
  simp only [List.mem_flatMap, List.mem_filterMap] at h
  obtain ⟨kn, hkn, l, hl, hsome⟩ := h
  rw [Option.map_eq_some'] at hsome
  obtain ⟨b, hb, heq⟩ := hsome
  have := bounds_cover (hm kn hkn l hl) hR hb
  rw [← heq]
  exact this

end ScreenContainment

/-- Claim C1 theorem. Whenever `compute_hints` succeeds on a manager
whose `screen_area` has i32-representable coordinates (true of every
Rust value), every emitted `rect_hints[i].rect` is contained in
`screen_area`: each visible window is clipped by
`window.area ∩ screen_area` before insertion, and masking never moves a
leaf's members (hence its bounding box) outside the screen. -/
theorem compute_hints_rects_within_screen (pm : PixelManager)
    (ch : ComputedHints) (hscreen : pm.screen_area.inI32Range)
    (h : pm.compute_hints = Except.ok ch) :
    ∀ rh ∈ ch.rect_hints, Rect.cover pm.screen_area rh.rect = true := by
  intro rh hrh
  unfold PixelManager.compute_hints at h
  cases hc : collectRectHints pm (ZTree.flatten (buildTree
      ((pm.windows.map (fun p => p.2)).filterMap
        (fun w => w.zsurface pm.screen_area)))) with
  | error e => rw [hc] at h; cases h
  | ok rhs =>
    rw [hc] at h
    simp only at h
    injection h with h
    subst h
    obtain ⟨zs, hzs, heq⟩ := collectRectHints_mem pm _ rhs hc rh hrh
    rw [heq]
    refine flatten_area_cover ?_ hscreen zs hzs
    refine buildTree_membersWithin pm.screen_area _ ?_
    intro s hs
    simp only [List.mem_filterMap, List.mem_map] at hs
    obtain ⟨w, _, hws⟩ := hs
    unfold Window.zsurface at hws
    split at hws
    · rw [Option.map_eq_some'] at hws
      obtain ⟨i, hi, heq2⟩ := hws
      rw [← heq2]
      exact (intersection_subRect hi).2
    · cases hws

/-- Witness for C1: one visible window hanging off the screen edge. -/
theorem compute_hints_rects_within_screen_witness :
    ((Rect.mk 0 0 1872 1404).inI32Range ∧
     PixelManager.compute_hints
        (PixelManager.mk (Hint.new HintBitDepth.Y4 HintConvertMode.Dither true)
          (Rect.mk 0 0 1872 1404)
          [("app:1", Application.mk "app" 1 none ["w1"])]
          [("w1", Window.mk "w1" "app:1"
            (WindowData.mk "t" (Rect.mk 1000 1000 2000 1600)
              (some (Hint.new HintBitDepth.Y2 HintConvertMode.Dither false))
              true 0))]) =
      Except.ok (ComputedHints.mk
        (some (Hint.new HintBitDepth.Y4 HintConvertMode.Dither true))
        [RectHint.mk (Rect.mk 1000 1000 1872 1404)
          (Hint.new HintBitDepth.Y2 HintConvertMode.Dither false)])) ∧
    (∀ rh ∈ (ComputedHints.mk
        (some (Hint.new HintBitDepth.Y4 HintConvertMode.Dither true))
        [RectHint.mk (Rect.mk 1000 1000 1872 1404)
          (Hint.new HintBitDepth.Y2 HintConvertMode.Dither false)]).rect_hints,
      Rect.cover (PixelManager.mk (Hint.new HintBitDepth.Y4 HintConvertMode.Dither true)
          (Rect.mk 0 0 1872 1404)
          [("app:1", Application.mk "app" 1 none ["w1"])]
          [("w1", Window.mk "w1" "app:1"
            (WindowData.mk "t" (Rect.mk 1000 1000 2000 1600)
              (some (Hint.new HintBitDepth.Y2 HintConvertMode.Dither false))
              true 0))]).screen_area rh.rect = true) :=
  ⟨⟨by decide, by decide⟩,
   compute_hints_rects_within_screen _ _ (by decide) (by decide)⟩

section RegistryInvariant

theorem containsKey_iff {α : Type} (m : List (String × α)) (k : String) :
    containsKey m k = true ↔ ∃ p ∈ m, p.1 = k := by
  unfold containsKey
  rw [List.find?_isSome]
  constructor
  · rintro ⟨p, hp, hpk⟩
    exact ⟨p, hp, by simpa using hpk⟩
  · rintro ⟨p, hp, hpk⟩
    exact ⟨p, hp, by simpa using hpk⟩

theorem containsKey_false_iff {α : Type} (m : List (String × α)) (k : String) :
    containsKey m k = false ↔ ∀ p ∈ m, p.1 ≠ k := by
  rw [← Bool.not_eq_true, containsKey_iff]
  push_neg
  rfl

theorem lookupKey_eq_some {α : Type} {m : List (String × α)} {k : String}
    {v : α} (h : lookupKey m k = some v) : (k, v) ∈ m := by
  unfold lookupKey at h
  rw [Option.map_eq_some'] at h
  obtain ⟨p, hp, hv⟩ := h
  have hmem := List.mem_of_find?_eq_some hp
  have hpk := List.find?_some hp
  simp only [beq_iff_eq] at hpk
  have : p = (k, v) := by
    cases p
    simp_all
  rw [← this]
  exact hmem

theorem modifyKey_keys {α : Type} (m : List (String × α)) (k : String)
    (f : α → α) : (modifyKey m k f).map Prod.fst = m.map Prod.fst := by
  unfold modifyKey
  rw [List.map_map]
  apply List.map_congr_left
  intro p _
  by_cases h : p.1 = k <;> simp [h]

theorem keyUnique {α : Type} {m : List (String × α)}
    (h : (m.map Prod.fst).Nodup) {p1 p2 : String × α}
    (h1 : p1 ∈ m) (h2 : p2 ∈ m) (hk : p1.1 = p2.1) : p1 = p2 := by
  induction m with
  | nil => cases h1
  | cons a m ih =>
    rw [List.map_cons, List.nodup_cons] at h
    rcases List.mem_cons.mp h1 with rfl | h1' <;>
      rcases List.mem_cons.mp h2 with rfl | h2'
    · rfl
    · exfalso
      apply h.1
      rw [hk]
      exact List.mem_map_of_mem _ h2'
    · exfalso
      apply h.1
      rw [← hk]
      exact List.mem_map_of_mem _ h1'
    · exact ih h.2 h1' h2'

theorem strContains_iff {l : List String} {a : String} :
    l.contains a = true ↔ a ∈ l := by
  simp

/-- The two registry invariants of the spec, plus the key-uniqueness of
both maps (automatic for `HashMap`, explicit in the association-list
model): every window's `app_key` names an existing application, and each
application's window set is exactly the set of uids of its windows. -/
def RegistryInv (pm : PixelManager) : Prop :=
  (pm.applications.map Prod.fst).Nodup ∧
  (pm.windows.map Prod.fst).Nodup ∧
  (∀ uw ∈ pm.windows, ∃ ka ∈ pm.applications, ka.1 = uw.2.app_key) ∧
  (∀ ka ∈ pm.applications, ∀ uid : String,
    uid ∈ ka.2.windows ↔ ∃ uw ∈ pm.windows, uw.1 = uid ∧ uw.2.app_key = ka.1)

theorem inv_app_add (pm : PixelManager) (app : Application)
    (happ : app.windows = []) (h : RegistryInv pm) :
    RegistryInv (pm.app_add app).2 := by
  unfold PixelManager.app_add
  by_cases hc : containsKey pm.applications app.key = true
  · rw [if_pos hc]
    exact h
  · rw [if_neg hc]
    obtain ⟨h1, h2, h3, h4⟩ := h
    rw [Bool.not_eq_true] at hc
    rw [containsKey_false_iff] at hc
    refine ⟨?_, h2, ?_, ?_⟩
    · rw [List.map_cons, List.nodup_cons]
      refine ⟨?_, h1⟩
      intro hm
      rw [List.mem_map] at hm
      obtain ⟨p, hp, hpk⟩ := hm
      exact hc p hp hpk
    · intro uw huw
      obtain ⟨ka, hka, hk⟩ := h3 uw huw
      exact ⟨ka, List.mem_cons_of_mem _ hka, hk⟩
    · intro ka hka uid
      rcases List.mem_cons.mp hka with rfl | hka'
      · simp only [happ, List.not_mem_nil, false_iff]
        rintro ⟨uw, huw, _, hak⟩
        obtain ⟨ka', hka', hk'⟩ := h3 uw huw
        exact hc ka' hka' (by rw [hk', hak])
      · exact h4 ka hka' uid

theorem inv_app_remove (pm : PixelManager) (key : String)
    (h : RegistryInv pm) : RegistryInv (pm.app_remove key) := by
  unfold PixelManager.app_remove
  cases hl : lookupKey pm.applications key with
  | none => exact h
  | some app =>
    have hmem : (key, app) ∈ pm.applications := lookupKey_eq_some hl
    obtain ⟨h1, h2, h3, h4⟩ := h
    dsimp only
    refine ⟨?_, ?_, ?_, ?_⟩
    · exact List.Nodup.sublist
        (List.Sublist.map Prod.fst (List.filter_sublist _)) h1
    · exact List.Nodup.sublist
        (List.Sublist.map Prod.fst (List.filter_sublist _)) h2
    · intro uw huw
      have huw' := (List.mem_filter.mp huw).1
      have hnc := (List.mem_filter.mp huw).2
      obtain ⟨ka, hka, hk⟩ := h3 uw huw'
      refine ⟨ka, ?_, hk⟩
      unfold removeKey
      rw [List.mem_filter]
      refine ⟨hka, ?_⟩
      simp only [Bool.not_eq_eq_eq_not, Bool.not_true, beq_eq_false_iff_ne, ne_eq]
      intro hkey
      have hka2 : ka = (key, app) := keyUnique h1 hka hmem hkey
      have hwin : uw.1 ∈ app.windows := by
        rw [h4 (key, app) hmem uw.1]
        exact ⟨uw, huw', rfl, by rw [← hk]; exact hkey⟩
      rw [Bool.not_eq_eq_eq_not, Bool.not_true] at hnc
      rw [← Bool.not_eq_true, strContains_iff] at hnc
      exact hnc hwin
    · intro ka hka uid
      have hka' := (List.mem_filter.mp hka).1
      have hkey : ka.1 ≠ key := by
        have := (List.mem_filter.mp hka).2
        simpa using this
      rw [h4 ka hka' uid]
      constructor
      · rintro ⟨uw, huw, huid, hak⟩
        refine ⟨uw, ?_, huid, hak⟩
        rw [List.mem_filter]
        refine ⟨huw, ?_⟩
        simp only [Bool.not_eq_eq_eq_not, Bool.not_true]
        rw [← Bool.not_eq_true, strContains_iff]
        intro hwin
        rw [h4 (key, app) hmem uw.1] at hwin
        obtain ⟨uw', huw', huid', hak'⟩ := hwin
        have : uw' = uw := keyUnique h2 huw' huw huid'
        rw [this] at hak'
        rw [hak] at hak'
        exact hkey hak'
      · rintro ⟨uw, huw, huid, hak⟩
        exact ⟨uw, (List.mem_filter.mp huw).1, huid, hak⟩

theorem modifyKey_exists_key {α : Type} (m : List (String × α)) (k : String)
    (f : α → α) (key : String) (h : ∃ p ∈ m, p.1 = key) :
    ∃ p ∈ modifyKey m k f, p.1 = key := by
  obtain ⟨p, hp, hpk⟩ := h
  unfold modifyKey
  refine ⟨(fun p => if p.1 == k then (p.1, f p.2) else p) p,
    List.mem_map_of_mem _ hp, ?_⟩
  show (if (p.1 == k) = true then (p.1, f p.2) else p).1 = key
  by_cases hc : p.1 = k
  · rw [if_pos (by simp [hc])]
    exact hpk
  · rw [if_neg (by simp [hc])]
    exact hpk

theorem inv_window_add (pm : PixelManager) (w : Window) (h : RegistryInv pm) :
    RegistryInv (match pm.window_add w with
      | Except.ok p => p.2
      | Except.error _ => pm) := by
  unfold PixelManager.window_add
  by_cases hc1 : containsKey pm.applications w.app_key = true
  · simp only [hc1, Bool.not_true, Bool.false_eq_true, if_false]
    by_cases hc2 : containsKey pm.windows w.uid = true
    · rw [if_pos hc2]
      exact h
    · rw [if_neg hc2]
      obtain ⟨h1, h2, h3, h4⟩ := h
      rw [Bool.not_eq_true, containsKey_false_iff] at hc2
      obtain ⟨ka0, hka0, hka0k⟩ := (containsKey_iff _ _).mp hc1
      dsimp only
      refine ⟨?_, ?_, ?_, ?_⟩
      · rw [modifyKey_keys]
        exact h1
      · rw [List.map_cons, List.nodup_cons]
        refine ⟨?_, h2⟩
        intro hm
        rw [List.mem_map] at hm
        obtain ⟨p, hp, hpk⟩ := hm
        exact hc2 p hp hpk
      · intro uw huw
        dsimp only at huw ⊢
        rcases List.mem_cons.mp huw with rfl | huw'
        · exact modifyKey_exists_key _ _ _ _ ⟨ka0, hka0, hka0k⟩
        · obtain ⟨ka, hka, hk⟩ := h3 uw huw'
          exact modifyKey_exists_key _ _ _ _ ⟨ka, hka, hk⟩
      · intro ka' hka' uid
        unfold modifyKey at hka'
        rw [List.mem_map] at hka'
        obtain ⟨ka, hka, hgg⟩ := hka'
        by_cases hkey : ka.1 = w.app_key
        · rw [if_pos (by simpa using hkey)] at hgg
          subst hgg
          have hLHS : (uid ∈ (if ka.2.windows.contains w.uid then ka.2.windows
              else w.uid :: ka.2.windows)) ↔
              (uid = w.uid ∨ uid ∈ ka.2.windows) := by
            by_cases hcw : ka.2.windows.contains w.uid = true
            · rw [if_pos hcw]
              rw [strContains_iff] at hcw
              constructor
              · intro hu
                exact Or.inr hu
              · rintro (rfl | hu)
                · exact hcw
                · exact hu
            · rw [if_neg hcw]
              rw [List.mem_cons]
          dsimp only
          rw [hLHS]
          constructor
          · rintro (rfl | hu)
            · exact ⟨(w.uid, w), List.mem_cons_self _ _, rfl, hkey.symm⟩
            · obtain ⟨uw, huw, huid, hak⟩ := (h4 ka hka uid).mp hu
              exact ⟨uw, List.mem_cons_of_mem _ huw, huid, hak⟩
          · rintro ⟨uw, huw, huid, hak⟩
            rcases List.mem_cons.mp huw with rfl | huw'
            · exact Or.inl huid.symm
            · exact Or.inr ((h4 ka hka uid).mpr ⟨uw, huw', huid, hak⟩)
        · rw [if_neg (by simpa using hkey)] at hgg
          subst hgg
          rw [h4 ka hka uid]
          constructor
          · rintro ⟨uw, huw, huid, hak⟩
            exact ⟨uw, List.mem_cons_of_mem _ huw, huid, hak⟩
          · rintro ⟨uw, huw, huid, hak⟩
            rcases List.mem_cons.mp huw with rfl | huw'
            · exfalso
              subst huid
              exact hkey (by rw [← hak])
            · exact ⟨uw, huw', huid, hak⟩
  · simp only [hc1]
    simp only [Bool.not_false, if_true]
    exact h

theorem inv_window_update (pm : PixelManager) (uid : String)
    (data : WindowData) (h : RegistryInv pm) :
    RegistryInv (match pm.window_update uid data with
      | Except.ok pm' => pm'
      | Except.error _ => pm) := by
  unfold PixelManager.window_update
  by_cases hc : containsKey pm.windows uid = true
  · rw [if_pos hc]
    obtain ⟨h1, h2, h3, h4⟩ := h
    dsimp only
    refine ⟨h1, ?_, ?_, ?_⟩
    · rw [modifyKey_keys]
      exact h2
    · intro uw' huw'
      unfold modifyKey at huw'
      rw [List.mem_map] at huw'
      obtain ⟨uw, huw, hgg⟩ := huw'
      obtain ⟨ka, hka, hk⟩ := h3 uw huw
      refine ⟨ka, hka, ?_⟩
      rw [hk]
      by_cases hkey : uw.1 = uid
      · rw [if_pos (by simpa using hkey)] at hgg
        rw [← hgg]
      · rw [if_neg (by simpa using hkey)] at hgg
        rw [← hgg]
    · intro ka hka uid'
      rw [h4 ka hka uid']
      constructor
      · rintro ⟨uw, huw, huid, hak⟩
        by_cases hkey : uw.1 = uid
        · refine ⟨(uw.1, { uw.2 with data := data }), ?_, huid, hak⟩
          unfold modifyKey
          have := List.mem_map_of_mem (fun p : String × Window =>
            if p.1 == uid then (p.1, { p.2 with data := data }) else p) huw
          simpa [hkey] using this
        · refine ⟨uw, ?_, huid, hak⟩
          unfold modifyKey
          have := List.mem_map_of_mem (fun p : String × Window =>
            if p.1 == uid then (p.1, { p.2 with data := data }) else p) huw
          simpa [hkey] using this
      · rintro ⟨uw', huw', huid, hak⟩
        unfold modifyKey at huw'
        rw [List.mem_map] at huw'
        obtain ⟨uw, huw, hgg⟩ := huw'
        by_cases hkey : uw.1 = uid
        · rw [if_pos (by simpa using hkey)] at hgg
          refine ⟨uw, huw, ?_, ?_⟩
          · rw [← hgg] at huid
            exact huid
          · rw [← hgg] at hak
            exact hak
        · rw [if_neg (by simpa using hkey)] at hgg
          subst hgg
          exact ⟨uw, huw, huid, hak⟩
  · rw [if_neg hc]
    exact h

theorem inv_window_remove (pm : PixelManager) (uid : String)
    (h : RegistryInv pm) : RegistryInv (pm.window_remove uid) := by
  unfold PixelManager.window_remove
  cases hl : lookupKey pm.windows uid with
  | none => exact h
  | some w =>
    have hmem : (uid, w) ∈ pm.windows := lookupKey_eq_some hl
    obtain ⟨h1, h2, h3, h4⟩ := h
    dsimp only
    refine ⟨?_, ?_, ?_, ?_⟩
    · rw [modifyKey_keys]
      exact h1
    · exact List.Nodup.sublist
        (List.Sublist.map Prod.fst (List.filter_sublist _)) h2
    · intro uw huw
      dsimp only at huw ⊢
      have huw' := (List.mem_filter.mp huw).1
      obtain ⟨ka, hka, hk⟩ := h3 uw huw'
      exact modifyKey_exists_key _ _ _ _ ⟨ka, hka, hk⟩
    · intro ka' hka' uid'
      unfold modifyKey at hka'
      rw [List.mem_map] at hka'
      obtain ⟨ka, hka, hgg⟩ := hka'
      by_cases hkey : ka.1 = w.app_key
      · rw [if_pos (by simpa using hkey)] at hgg
        subst hgg
        dsimp only
        rw [List.mem_filter]
        rw [h4 ka hka uid']
        constructor
        · rintro ⟨⟨uw, huw, huid, hak⟩, hne⟩
          simp only [Bool.not_eq_eq_eq_not, Bool.not_true, beq_eq_false_iff_ne,
            ne_eq] at hne
          refine ⟨uw, ?_, huid, hak⟩
          show uw ∈ removeKey pm.windows uid
          unfold removeKey
          rw [List.mem_filter]
          refine ⟨huw, ?_⟩
          simp only [Bool.not_eq_eq_eq_not, Bool.not_true, beq_eq_false_iff_ne,
            ne_eq]
          rw [huid]
          exact hne
        · rintro ⟨uw, huw, huid, hak⟩
          have huw1 := (List.mem_filter.mp huw).1
          have hne := (List.mem_filter.mp huw).2
          simp only [Bool.not_eq_eq_eq_not, Bool.not_true, beq_eq_false_iff_ne,
            ne_eq] at hne
          refine ⟨⟨uw, huw1, huid, hak⟩, ?_⟩
          simp only [Bool.not_eq_eq_eq_not, Bool.not_true, beq_eq_false_iff_ne,
            ne_eq]
          rw [← huid]
          exact hne
      · rw [if_neg (by simpa using hkey)] at hgg
        subst hgg
        rw [h4 ka hka uid']
        constructor
        · rintro ⟨uw, huw, huid, hak⟩
          refine ⟨uw, ?_, huid, hak⟩
          show uw ∈ removeKey pm.windows uid
          unfold removeKey
          rw [List.mem_filter]
          refine ⟨huw, ?_⟩
          simp only [Bool.not_eq_eq_eq_not, Bool.not_true, beq_eq_false_iff_ne,
            ne_eq]
          intro heq
          have : uw = (uid, w) := keyUnique h2 huw hmem heq
          rw [this] at hak
          exact hkey (by rw [← hak])
        · rintro ⟨uw, huw, huid, hak⟩
          exact ⟨uw, (List.mem_filter.mp huw).1, huid, hak⟩

/-- The registry mutations named by the claim, with the payloads external
callers control (`Application::new` / `with_hint` always start with an
empty window set; `Window::new` freshly allocates the uid, modelled as an
arbitrary string argument). -/
inductive RegistryOp
  | appAdd (app_id : String) (pid : Int) (default_hint : Option Hint)
  | appRemove (key : String)
  | windowAdd (uid : String) (app_key : String) (data : WindowData)
  | windowUpdate (uid : String) (data : WindowData)
  | windowRemove (uid : String)

/-- Apply one registry operation (failed fallible operations leave the
manager unchanged, as in the dispatcher). -/
def applyOp (pm : PixelManager) : RegistryOp → PixelManager
  | RegistryOp.appAdd app_id pid default_hint =>
      (pm.app_add ⟨app_id, pid, default_hint, []⟩).2
  | RegistryOp.appRemove key => pm.app_remove key
  | RegistryOp.windowAdd uid app_key data =>
      match pm.window_add ⟨uid, app_key, data⟩ with
      | Except.ok p => p.2
      | Except.error _ => pm
  | RegistryOp.windowUpdate uid data =>
      match pm.window_update uid data with
      | Except.ok pm' => pm'
      | Except.error _ => pm
  | RegistryOp.windowRemove uid => pm.window_remove uid

/-- Apply a whole operation sequence. -/
def applyOps (pm : PixelManager) (ops : List RegistryOp) : PixelManager :=
  ops.foldl applyOp pm

/-- Claim C9 theorem. After any sequence of `app_add`, `app_remove`,
`window_add`, `window_update` and `window_remove` operations starting
from an empty `PixelManager`, every window's `app_key` refers to an
existing application, and each application's window set is exactly the
set of uids of the windows whose `app_key` equals that application's
key (both maps also keep their keys unique). -/
theorem registry_invariant_holds (dh : Hint) (screen : Rect)
    (ops : List RegistryOp) :
    RegistryInv (applyOps (PixelManager.new dh screen) ops) := by
  have hstep : ∀ pm op, RegistryInv pm → RegistryInv (applyOp pm op) := by
    intro pm op h
    cases op with
    | appAdd app_id pid default_hint =>
      exact inv_app_add pm ⟨app_id, pid, default_hint, []⟩ rfl h
    | appRemove key => exact inv_app_remove pm key h
    | windowAdd uid app_key data => exact inv_window_add pm ⟨uid, app_key, data⟩ h
    | windowUpdate uid data => exact inv_window_update pm uid data h
    | windowRemove uid => exact inv_window_remove pm uid h
  have h0 : RegistryInv (PixelManager.new dh screen) := by
    refine ⟨List.nodup_nil, List.nodup_nil, ?_, ?_⟩
    · intro uw huw
      cases huw
    · intro ka hka
      cases hka
  have main : ∀ (ops : List RegistryOp) (pm : PixelManager), RegistryInv pm →
      RegistryInv (ops.foldl applyOp pm) := by
    intro ops
    induction ops with
    | nil => intro pm h; exact h
    | cons op ops ih =>
      intro pm h
      exact ih _ (hstep pm op h)
  exact main ops _ h0

end RegistryInvariant

/-! Order independence of `ZTree` insertion for distinct z-indices
(claim C5).  The proof characterises the tree reachable from a set of
surfaces purely by the *pixel sets* its leaves cover: after inserting a
set `ss`, the leaf of surface `s` covers exactly
`s.area \ ⋃ { s'.area | s' ∈ ss, s'.z_index > s.z_index }`, which does
not depend on insertion order, and the emitted bounding box of a set of
positive rectangles is a function of the covered pixel set alone. -/

section MaskSetSemantics

theorem memPt_posRect {q : Rect} {x y : Int} (h : q.memPt x y) : q.posRect := by
  unfold Rect.memPt at h
  unfold Rect.posRect
  omega

theorem not_memPt_of_not_posRect {q : Rect} (h : ¬ q.posRect) (x y : Int) :
    ¬ q.memPt x y := fun hm => h (memPt_posRect hm)

theorem mask_with_coveredPt (s : SplitRect) (M : Rect) (x y : Int) :
    SplitRect.coveredPt (SplitRect.mask_with s M) x y ↔
      (SplitRect.coveredPt s x y ∧ ¬ M.memPt x y) := by
  unfold SplitRect.mask_with SplitRect.coveredPt
  simp only [List.mem_flatMap]
  constructor
  · rintro ⟨q', ⟨q, hq, hq'⟩, hmem⟩
    have := (mask_rect_coveredPt q M x y).mp ⟨q', hq', hmem⟩
    exact ⟨⟨q, hq, this.1⟩, this.2⟩
  · rintro ⟨⟨q, hq, hmem⟩, hM⟩
    obtain ⟨q', hq', hm'⟩ := (mask_rect_coveredPt q M x y).mpr ⟨hmem, hM⟩
    exact ⟨q', ⟨q, hq, hq'⟩, hm'⟩

theorem mask_with_pos {s : SplitRect} {M : Rect}
    (h : ∀ q ∈ s, q.posRect) : ∀ q' ∈ SplitRect.mask_with s M, q'.posRect := by
  intro q' hq'
  unfold SplitRect.mask_with at hq'
  simp only [List.mem_flatMap] at hq'
  obtain ⟨q, hq, hmem⟩ := hq'
  exact mask_rect_posRect q M (h q hq) q' hmem

theorem covered_of_pos_nonempty {s : SplitRect}
    (hpos : ∀ q ∈ s, q.posRect) (hne : s ≠ []) :
    ∃ x y, SplitRect.coveredPt s x y := by
  cases s with
  | nil => exact absurd rfl hne
  | cons q s =>
    have hq := hpos q (List.mem_cons_self _ _)
    unfold Rect.posRect at hq
    exact ⟨q.x1, q.y1, q, List.mem_cons_self _ _, by unfold Rect.memPt; omega⟩

theorem mask_rect_of_not_posRect {r : Rect} (h : ¬ r.posRect) (M : Rect) :
    SplitRect.mask_rect r M = [r] := by
  unfold SplitRect.mask_rect
  cases hi : Rect.intersection r M with
  | none => rfl
  | some inter =>
    rw [intersection_eq_some_iff] at hi
    unfold Rect.posRect at h
    exfalso
    omega

theorem mask_with_not_posRect {M : Rect} (h : ¬ M.posRect) (s : SplitRect) :
    SplitRect.mask_with s M = s := by
  unfold SplitRect.mask_with
  induction s with
  | nil => rfl
  | cons q s ih =>
    rw [List.flatMap_cons, ih]
    have : SplitRect.mask_rect q M = [q] := by
      unfold SplitRect.mask_rect
      cases hi : Rect.intersection q M with
      | none => rfl
      | some inter =>
        rw [intersection_eq_some_iff] at hi
        unfold Rect.posRect at h
        exfalso
        omega
    rw [this]
    rfl

end MaskSetSemantics

section BoundsSemantics

theorem foldl_min_le : ∀ (xs : List Int) (a : Int),
    xs.foldl min a ≤ a ∧ ∀ x ∈ xs, xs.foldl min a ≤ x := by
  intro xs
  induction xs with
  | nil => intro a; exact ⟨le_refl a, by intro x hx; cases hx⟩
  | cons x xs ih =>
    intro a
    rw [List.foldl_cons]
    obtain ⟨h1, h2⟩ := ih (min a x)
    refine ⟨le_trans h1 (min_le_left _ _), ?_⟩
    intro x' hx'
    rcases List.mem_cons.mp hx' with rfl | hx'
    · exact le_trans h1 (min_le_right _ _)
    · exact h2 x' hx'

theorem foldl_min_reached : ∀ (xs : List Int) (a : Int),
    xs.foldl min a = a ∨ ∃ x ∈ xs, xs.foldl min a = x := by
  intro xs
  induction xs with
  | nil => intro a; exact Or.inl rfl
  | cons x xs ih =>
    intro a
    rw [List.foldl_cons]
    rcases ih (min a x) with h | ⟨x', hx', h⟩
    · rcases min_cases a x with ⟨hm, _⟩ | ⟨hm, _⟩
      · exact Or.inl (by rw [h, hm])
      · exact Or.inr ⟨x, List.mem_cons_self _ _, by rw [h, hm]⟩
    · exact Or.inr ⟨x', List.mem_cons_of_mem _ hx', h⟩

theorem foldl_max_ge : ∀ (xs : List Int) (a : Int),
    a ≤ xs.foldl max a ∧ ∀ x ∈ xs, x ≤ xs.foldl max a := by
  intro xs
  induction xs with
  | nil => intro a; exact ⟨le_refl a, by intro x hx; cases hx⟩
  | cons x xs ih =>
    intro a
    rw [List.foldl_cons]
    obtain ⟨h1, h2⟩ := ih (max a x)
    refine ⟨le_trans (le_max_left _ _) h1, ?_⟩
    intro x' hx'
    rcases List.mem_cons.mp hx' with rfl | hx'
    · exact le_trans (le_max_right _ _) h1
    · exact h2 x' hx'

theorem foldl_max_reached : ∀ (xs : List Int) (a : Int),
    xs.foldl max a = a ∨ ∃ x ∈ xs, xs.foldl max a = x := by
  intro xs
  induction xs with
  | nil => intro a; exact Or.inl rfl
  | cons x xs ih =>
    intro a
    rw [List.foldl_cons]
    rcases ih (max a x) with h | ⟨x', hx', h⟩
    · rcases max_cases a x with ⟨hm, _⟩ | ⟨hm, _⟩
      · exact Or.inl (by rw [h, hm])
      · exact Or.inr ⟨x, List.mem_cons_self _ _, by rw [h, hm]⟩
    · exact Or.inr ⟨x', List.mem_cons_of_mem _ hx', h⟩

/-- The rectangle fold of `SplitRect::bounds` computes component-wise
`foldl min` / `foldl max` of the member coordinates. -/
theorem boundsFold_components : ∀ (l : List Rect) (acc : Rect),
    (l.foldl (fun racc r => Rect.mk (min racc.x1 r.x1) (min racc.y1 r.y1)
      (max racc.x2 r.x2) (max racc.y2 r.y2)) acc) =
    Rect.mk ((l.map Rect.x1).foldl min acc.x1)
            ((l.map Rect.y1).foldl min acc.y1)
            ((l.map Rect.x2).foldl max acc.x2)
            ((l.map Rect.y2).foldl max acc.y2) := by
  intro l
  induction l with
  | nil => intro acc; rfl
  | cons q l ih =>
    intro acc
    rw [List.foldl_cons]
    rw [ih]
    rfl

theorem bounds_eq_some {s : SplitRect} (hne : s ≠ []) :
    SplitRect.bounds s = some (Rect.mk
      ((s.map Rect.x1).foldl min 2147483647)
      ((s.map Rect.y1).foldl min 2147483647)
      ((s.map Rect.x2).foldl max (-2147483648))
      ((s.map Rect.y2).foldl max (-2147483648))) := by
  unfold SplitRect.bounds
  rw [if_neg (by simpa using hne)]
  rw [boundsFold_components]

/-- Points of a member lie inside the computed bounds. -/
theorem bounds_memPt {s : SplitRect} {b q : Rect} {x y : Int}
    (hb : SplitRect.bounds s = some b) (hq : q ∈ s) (hm : q.memPt x y) :
    b.memPt x y := by
  have hne : s ≠ [] := by
    intro h
    subst h
    cases hq
  rw [bounds_eq_some hne] at hb
  injection hb with hb
  subst hb
  unfold Rect.memPt at hm ⊢
  have h1 := (foldl_min_le (s.map Rect.x1) 2147483647).2 q.x1
    (List.mem_map_of_mem _ hq)
  have h2 := (foldl_min_le (s.map Rect.y1) 2147483647).2 q.y1
    (List.mem_map_of_mem _ hq)
  have h3 := (foldl_max_ge (s.map Rect.x2) (-2147483648)).2 q.x2
    (List.mem_map_of_mem _ hq)
  have h4 := (foldl_max_ge (s.map Rect.y2) (-2147483648)).2 q.y2
    (List.mem_map_of_mem _ hq)
  simp only at h1 h2 h3 h4 ⊢
  omega

/-- The bounding box of a non-empty list of positive rectangles is
determined by the covered pixel set alone. -/
theorem bounds_determined {s1 s2 : SplitRect} {b1 b2 : Rect}
    (hpos1 : ∀ q ∈ s1, q.posRect) (hpos2 : ∀ q ∈ s2, q.posRect)
    (hcov : ∀ x y, SplitRect.coveredPt s1 x y ↔ SplitRect.coveredPt s2 x y)
    (hb1 : SplitRect.bounds s1 = some b1) (hb2 : SplitRect.bounds s2 = some b2) :
    b1 = b2 := by
  have key : ∀ (sa sb : SplitRect) (ba bb : Rect),
      (∀ q ∈ sa, q.posRect) → (∀ q ∈ sb, q.posRect) →
      (∀ x y, SplitRect.coveredPt sa x y → SplitRect.coveredPt sb x y) →
      SplitRect.bounds sa = some ba → SplitRect.bounds sb = some bb →
      bb.x1 ≤ ba.x1 ∧ bb.y1 ≤ ba.y1 ∧ ba.x2 ≤ bb.x2 ∧ ba.y2 ≤ bb.y2 := by
    intro sa sb ba bb hpa hpb hc hba hbb
    have hnea : sa ≠ [] := by
      intro h
      rw [h] at hba
      cases hba
    have hneb : sb ≠ [] := by
      intro h
      rw [h] at hbb
      cases hbb
    rw [bounds_eq_some hnea] at hba
    rw [bounds_eq_some hneb] at hbb
    injection hba with hba
    injection hbb with hbb
    subst hba
    subst hbb
    refine ⟨?_, ?_, ?_, ?_⟩
    · rcases foldl_min_reached (sa.map Rect.x1) 2147483647 with h | ⟨v, hv, h⟩
      · simp only [h]
        exact (foldl_min_le _ _).1
      · simp only [h]
        rw [List.mem_map] at hv
        obtain ⟨q, hq, rfl⟩ := hv
        have hqpos := hpa q hq
        unfold Rect.posRect at hqpos
        have hcq : SplitRect.coveredPt sb q.x1 q.y1 :=
          hc _ _ ⟨q, hq, by unfold Rect.memPt; omega⟩
        obtain ⟨q', hq', hm'⟩ := hcq
        have := (foldl_min_le (sb.map Rect.x1) 2147483647).2 q'.x1
          (List.mem_map_of_mem _ hq')
        unfold Rect.memPt at hm'
        omega
    · rcases foldl_min_reached (sa.map Rect.y1) 2147483647 with h | ⟨v, hv, h⟩
      · simp only [h]
        exact (foldl_min_le _ _).1
      · simp only [h]
        rw [List.mem_map] at hv
        obtain ⟨q, hq, rfl⟩ := hv
        have hqpos := hpa q hq
        unfold Rect.posRect at hqpos
        have hcq : SplitRect.coveredPt sb q.x1 q.y1 :=
          hc _ _ ⟨q, hq, by unfold Rect.memPt; omega⟩
        obtain ⟨q', hq', hm'⟩ := hcq
        have := (foldl_min_le (sb.map Rect.y1) 2147483647).2 q'.y1
          (List.mem_map_of_mem _ hq')
        unfold Rect.memPt at hm'
        omega
    · rcases foldl_max_reached (sa.map Rect.x2) (-2147483648) with h | ⟨v, hv, h⟩
      · simp only [h]
        exact (foldl_max_ge _ _).1
      · simp only [h]
        rw [List.mem_map] at hv
        obtain ⟨q, hq, rfl⟩ := hv
        have hqpos := hpa q hq
        unfold Rect.posRect at hqpos
        have hcq : SplitRect.coveredPt sb (q.x2 - 1) q.y1 :=
          hc _ _ ⟨q, hq, by unfold Rect.memPt; omega⟩
        obtain ⟨q', hq', hm'⟩ := hcq
        have := (foldl_max_ge (sb.map Rect.x2) (-2147483648)).2 q'.x2
          (List.mem_map_of_mem _ hq')
        unfold Rect.memPt at hm'
        omega
    · rcases foldl_max_reached (sa.map Rect.y2) (-2147483648) with h | ⟨v, hv, h⟩
      · simp only [h]
        exact (foldl_max_ge _ _).1
      · simp only [h]
        rw [List.mem_map] at hv
        obtain ⟨q, hq, rfl⟩ := hv
        have hqpos := hpa q hq
        unfold Rect.posRect at hqpos
        have hcq : SplitRect.coveredPt sb q.x1 (q.y2 - 1) :=
          hc _ _ ⟨q, hq, by unfold Rect.memPt; omega⟩
        obtain ⟨q', hq', hm'⟩ := hcq
        have := (foldl_max_ge (sb.map Rect.y2) (-2147483648)).2 q'.y2
          (List.mem_map_of_mem _ hq')
        unfold Rect.memPt at hm'
        omega
  have h12 := key s1 s2 b1 b2 hpos1 hpos2 (fun x y => (hcov x y).mp) hb1 hb2
  have h21 := key s2 s1 b2 b1 hpos2 hpos1 (fun x y => (hcov x y).mpr) hb2 hb1
  cases b1
  cases b2
  simp only at h12 h21 ⊢
  congr 1 <;> omega

/-- The bounding box of a singleton list is the rectangle itself, as long
as the i32 initial accumulator does not clamp (always true of Rust
values). -/
theorem bounds_singleton {r : Rect} (hr : r.inI32Range) :
    SplitRect.bounds [r] = some r := by
  rw [bounds_eq_some (by simp)]
  unfold Rect.inI32Range at hr
  congr 1
  cases r
  simp only [List.map_cons, List.map_nil, List.foldl_cons, List.foldl_nil]
  simp only at hr
  congr 1 <;> omega

/-- `bounds` lies inside any rectangle containing all members (needs the
container's coordinates to be i32-representable). -/
theorem bounds_subRect {s : SplitRect} {b R : Rect}
    (hsub : ∀ q ∈ s, q.subRect R) (hR : R.inI32Range)
    (hb : SplitRect.bounds s = some b) : b.subRect R := by
  have := bounds_cover hsub hR hb
  rw [cover_eq_true_iff] at this
  unfold Rect.subRect
  exact this

theorem memPt_of_subRect {q R : Rect} {x y : Int} (h : q.subRect R)
    (hm : q.memPt x y) : R.memPt x y := by
  unfold Rect.subRect at h
  unfold Rect.memPt at *
  omega

end BoundsSemantics

section FoldMask

/-- A point is masked by one of the upper leaves: it lies in the bounding
box of that leaf's SplitRect. -/
def maskSetPt (us : List ZLeaf) (x y : Int) : Prop :=
  ∃ u ∈ us, ∃ b, SplitRect.bounds u.area = some b ∧ b.memPt x y

theorem maskSetPt_nil (x y : Int) : ¬ maskSetPt [] x y := by
  rintro ⟨u, hu, _⟩
  cases hu

theorem maskSetPt_cons {u : ZLeaf} {us : List ZLeaf} {bu : Rect} {x y : Int}
    (hbu : SplitRect.bounds u.area = some bu) :
    maskSetPt (u :: us) x y ↔ (bu.memPt x y ∨ maskSetPt us x y) := by
  unfold maskSetPt
  constructor
  · rintro ⟨u', hu', b, hb, hm⟩
    rcases List.mem_cons.mp hu' with rfl | hu'
    · rw [hbu] at hb
      injection hb with hb
      subst hb
      exact Or.inl hm
    · exact Or.inr ⟨u', hu', b, hb, hm⟩
  · rintro (hm | ⟨u', hu', b, hb, hm⟩)
    · exact ⟨u, List.mem_cons_self _ _, bu, hbu, hm⟩
    · exact ⟨u', List.mem_cons_of_mem _ hu', b, hb, hm⟩

theorem mask_eq_of_bounds {l u : ZLeaf} {bu : Rect}
    (hbu : SplitRect.bounds u.area = some bu) :
    ZLeaf.mask l u = if (SplitRect.mask_with l.area bu).isEmpty then none
      else some ⟨l.reference, SplitRect.mask_with l.area bu⟩ := by
  unfold ZLeaf.mask
  rw [hbu]
  rfl

/-- Masking a degenerate-area singleton leaf never changes it and never
fails: the ready state of a surface whose clipped area is empty. -/
theorem foldlM_mask_degenerate {r : Rect} (hr : ¬ r.posRect) (ref : String) :
    ∀ us : List ZLeaf, (∀ u ∈ us, u.area ≠ []) →
      us.foldlM ZLeaf.mask ⟨ref, [r]⟩ = some ⟨ref, [r]⟩ := by
  intro us
  induction us with
  | nil => intro _; rfl
  | cons u us ih =>
    intro h
    have hu : u.area ≠ [] := h u (List.mem_cons_self _ _)
    obtain ⟨bu, hbu⟩ : ∃ b, SplitRect.bounds u.area = some b := by
      cases hb : SplitRect.bounds u.area with
      | none => exact absurd ((bounds_eq_none_iff _).mp hb) hu
      | some b => exact ⟨b, rfl⟩
    have hm : ZLeaf.mask ⟨ref, [r]⟩ u = some ⟨ref, [r]⟩ := by
      rw [mask_eq_of_bounds hbu]
      have : SplitRect.mask_with [r] bu = [r] := by
        unfold SplitRect.mask_with
        rw [List.flatMap_cons, mask_rect_of_not_posRect hr, List.flatMap_nil,
          List.append_nil]
      rw [this]
      rfl
    simp only [List.foldlM_cons, Option.bind_eq_bind, hm, Option.some_bind]
    exact ih (fun u' hu' => h u' (List.mem_cons_of_mem _ hu'))

/-- Characterisation of the newcomer's `try_fold` over the upper leaves,
for a positive-membered starting leaf: it fails exactly when the start's
covered set minus the upper bounding boxes is empty, and otherwise the
surviving leaf covers exactly that difference. -/
theorem foldlM_mask_spec :
    ∀ (us : List ZLeaf) (l0 : ZLeaf),
      (∀ u ∈ us, u.area ≠ []) → l0.area ≠ [] → (∀ q ∈ l0.area, q.posRect) →
      ((us.foldlM ZLeaf.mask l0 = none ∧
        ∀ x y, ¬ (SplitRect.coveredPt l0.area x y ∧ ¬ maskSetPt us x y)) ∨
       (∃ l, us.foldlM ZLeaf.mask l0 = some l ∧ l.reference = l0.reference ∧
         l.area ≠ [] ∧ (∀ q ∈ l.area, q.posRect) ∧
         (∀ x y, SplitRect.coveredPt l.area x y ↔
           (SplitRect.coveredPt l0.area x y ∧ ¬ maskSetPt us x y)))) := by
  intro us
  induction us with
  | nil =>
    intro l0 _ hne hpos
    right
    refine ⟨l0, rfl, rfl, hne, hpos, ?_⟩
    intro x y
    constructor
    · intro h
      exact ⟨h, maskSetPt_nil x y⟩
    · intro h
      exact h.1
  | cons u us ih =>
    intro l0 hus hne hpos
    have hu : u.area ≠ [] := hus u (List.mem_cons_self _ _)
    have hus' : ∀ u' ∈ us, u'.area ≠ [] :=
      fun u' hu' => hus u' (List.mem_cons_of_mem _ hu')
    obtain ⟨bu, hbu⟩ : ∃ b, SplitRect.bounds u.area = some b := by
      cases hb : SplitRect.bounds u.area with
      | none => exact absurd ((bounds_eq_none_iff _).mp hb) hu
      | some b => exact ⟨b, rfl⟩
    have hAcov := fun x y => mask_with_coveredPt l0.area bu x y
    have hApos := mask_with_pos (M := bu) hpos
    by_cases hAe : SplitRect.mask_with l0.area bu = []
    · left
      have hmask : ZLeaf.mask l0 u = none := by
        rw [mask_eq_of_bounds hbu, hAe]
        rfl
      constructor
      · simp only [List.foldlM_cons, Option.bind_eq_bind, hmask, Option.none_bind]
      · rintro x y ⟨hcov, hnm⟩
        rw [maskSetPt_cons hbu] at hnm
        push_neg at hnm
        have : SplitRect.coveredPt (SplitRect.mask_with l0.area bu) x y :=
          (hAcov x y).mpr ⟨hcov, hnm.1⟩
        rw [hAe] at this
        obtain ⟨q, hq, _⟩ := this
        cases hq
    · have hmask : ZLeaf.mask l0 u =
          some ⟨l0.reference, SplitRect.mask_with l0.area bu⟩ := by
        rw [mask_eq_of_bounds hbu]
        rw [if_neg (by simpa using hAe)]
      rcases ih ⟨l0.reference, SplitRect.mask_with l0.area bu⟩ hus' hAe hApos with
        ⟨hnone, hcond⟩ | ⟨l, hsome, href, hlne, hlpos, hlcov⟩
      · left
        constructor
        · simp only [List.foldlM_cons, Option.bind_eq_bind, hmask, Option.some_bind]
          exact hnone
        · rintro x y ⟨hcov, hnm⟩
          rw [maskSetPt_cons hbu] at hnm
          push_neg at hnm
          exact hcond x y ⟨(hAcov x y).mpr ⟨hcov, hnm.1⟩, hnm.2⟩
      · right
        refine ⟨l, ?_, href, hlne, hlpos, ?_⟩
        · simp only [List.foldlM_cons, Option.bind_eq_bind, hmask, Option.some_bind]
          exact hsome
        · intro x y
          rw [hlcov x y]
          show SplitRect.coveredPt (SplitRect.mask_with l0.area bu) x y ∧
              ¬ maskSetPt us x y ↔ _
          rw [hAcov x y, maskSetPt_cons hbu]
          constructor
          · rintro ⟨⟨h1, h2⟩, h3⟩
            exact ⟨h1, by rintro (h | h) <;> [exact h2 h; exact h3 h]⟩
          · rintro ⟨h1, h2⟩
            push_neg at h2
            exact ⟨⟨h1, h2.1⟩, h2.2⟩

end FoldMask

section TreeInvariant

/-- A point is covered by some surface of `ss` strictly above level `z`. -/
def upperUnionPt (ss : List ZSurface) (z : Int) (x y : Int) : Prop :=
  ∃ s' ∈ ss, z < s'.z_index ∧ s'.area.memPt x y

/-- The visible set of surface `s` against the whole surface set `ss`:
its own pixels not covered by any strictly higher surface. -/
def visPt (ss : List ZSurface) (s : ZSurface) (x y : Int) : Prop :=
  s.area.memPt x y ∧ ¬ upperUnionPt ss s.z_index x y

/-- Pairwise distinct z-indices. -/
def zdistinct (ss : List ZSurface) : Prop :=
  ss.Pairwise (fun a b => a.z_index ≠ b.z_index)

/-- All surface areas have i32-representable coordinates (true of every
value the Rust program can hold). -/
def rangeOK (ss : List ZSurface) : Prop := ∀ s ∈ ss, s.area.inI32Range

instance (ss : List ZSurface) : Decidable (zdistinct ss) := by
  unfold zdistinct
  infer_instance

instance (ss : List ZSurface) : Decidable (rangeOK ss) := by
  unfold rangeOK
  infer_instance

/-- What the tree's leaf for surface `s` looks like: same reference,
covers exactly the visible set, members inside `s.area`; positive,
non-empty members when `s.area` is a real rectangle, and literally
`[s.area]` when it is degenerate. -/
def LeafInv (ss : List ZSurface) (s : ZSurface) (l : ZLeaf) : Prop :=
  l.reference = s.reference ∧
  (∀ x y, SplitRect.coveredPt l.area x y ↔ visPt ss s x y) ∧
  (∀ q ∈ l.area, q.subRect s.area) ∧
  (s.area.posRect → (l.area ≠ [] ∧ ∀ q ∈ l.area, q.posRect)) ∧
  (¬ s.area.posRect → l.area = [s.area])

/-- The tree reached by inserting the surfaces `ss` (with distinct
z-indices) in any order: sorted singleton buckets, one per surface that
is degenerate or still visible, each characterised by `LeafInv`. -/
def TreeInv (ss : List ZSurface) (t : ZTree) : Prop :=
  t.nodes.Pairwise (fun a b => a.1 < b.1) ∧
  (∀ kn ∈ t.nodes, ∃ s ∈ ss, s.z_index = kn.1 ∧
    ∃ l, kn.2.leaves = [l] ∧ LeafInv ss s l) ∧
  (∀ s ∈ ss, (¬ s.area.posRect ∨ ∃ x y, visPt ss s x y) →
    ∃ kn ∈ t.nodes, kn.1 = s.z_index)

theorem upperUnion_ext {ss1 ss2 : List ZSurface}
    (h : ∀ s, s ∈ ss1 ↔ s ∈ ss2) (z x y : Int) :
    upperUnionPt ss1 z x y ↔ upperUnionPt ss2 z x y := by
  unfold upperUnionPt
  constructor
  · rintro ⟨s', hs', hz', hm'⟩
    exact ⟨s', (h s').mp hs', hz', hm'⟩
  · rintro ⟨s', hs', hz', hm'⟩
    exact ⟨s', (h s').mpr hs', hz', hm'⟩

theorem visPt_ext {ss1 ss2 : List ZSurface} (h : ∀ s, s ∈ ss1 ↔ s ∈ ss2)
    (s : ZSurface) (x y : Int) : visPt ss1 s x y ↔ visPt ss2 s x y := by
  unfold visPt
  rw [upperUnion_ext h]

theorem upperUnion_cons {s : ZSurface} {ss : List ZSurface} {z x y : Int} :
    upperUnionPt (s :: ss) z x y ↔
      ((z < s.z_index ∧ s.area.memPt x y) ∨ upperUnionPt ss z x y) := by
  unfold upperUnionPt
  constructor
  · rintro ⟨s', hs', hz', hm'⟩
    rcases List.mem_cons.mp hs' with rfl | hs'
    · exact Or.inl ⟨hz', hm'⟩
    · exact Or.inr ⟨s', hs', hz', hm'⟩
  · rintro (⟨hz', hm'⟩ | ⟨s', hs', hz', hm'⟩)
    · exact ⟨s, List.mem_cons_self _ _, hz', hm'⟩
    · exact ⟨s', List.mem_cons_of_mem _ hs', hz', hm'⟩

theorem upperUnion_mono {ss : List ZSurface} {z z' x y : Int} (h : z' ≤ z) :
    upperUnionPt ss z x y → upperUnionPt ss z' x y := by
  rintro ⟨s', hs', hz', hm'⟩
  exact ⟨s', hs', by omega, hm'⟩

theorem zdistinct_unique {ss : List ZSurface} (h : zdistinct ss)
    {s1 s2 : ZSurface} (h1 : s1 ∈ ss) (h2 : s2 ∈ ss)
    (hz : s1.z_index = s2.z_index) : s1 = s2 := by
  induction ss with
  | nil => cases h1
  | cons a ss ih =>
    rw [zdistinct, List.pairwise_cons] at h
    rcases List.mem_cons.mp h1 with rfl | h1' <;>
      rcases List.mem_cons.mp h2 with rfl | h2'
    · rfl
    · exact absurd hz (h.1 s2 h2')
    · exact absurd hz.symm (h.1 s1 h1')
    · exact ih h.2 h1' h2'

theorem exists_max_z {ss : List ZSurface} {P : ZSurface → Prop}
    (h : ∃ s ∈ ss, P s) :
    ∃ s ∈ ss, P s ∧ ∀ s' ∈ ss, P s' → s'.z_index ≤ s.z_index := by
  induction ss with
  | nil =>
    obtain ⟨s, hs, _⟩ := h
    cases hs
  | cons a ss ih =>
    by_cases hP : ∃ s ∈ ss, P s
    · obtain ⟨m, hm, hPm, hmax⟩ := ih hP
      by_cases ha : P a
      · by_cases hcmp : m.z_index ≤ a.z_index
        · refine ⟨a, List.mem_cons_self _ _, ha, ?_⟩
          intro s' hs' hPs'
          rcases List.mem_cons.mp hs' with rfl | h'
          · exact le_refl _
          · exact le_trans (hmax s' h' hPs') hcmp
        · refine ⟨m, List.mem_cons_of_mem _ hm, hPm, ?_⟩
          intro s' hs' hPs'
          rcases List.mem_cons.mp hs' with rfl | h'
          · omega
          · exact hmax s' h' hPs'
      · refine ⟨m, List.mem_cons_of_mem _ hm, hPm, ?_⟩
        intro s' hs' hPs'
        rcases List.mem_cons.mp hs' with rfl | h'
        · exact absurd hPs' ha
        · exact hmax s' h' hPs'
    · obtain ⟨s, hs, hPs⟩ := h
      rcases List.mem_cons.mp hs with rfl | hs'
      · refine ⟨s, List.mem_cons_self _ _, hPs, ?_⟩
        intro s' hs' hPs'
        rcases List.mem_cons.mp hs' with rfl | h'
        · exact le_refl _
        · exact absurd ⟨s', h', hPs'⟩ hP
      · exact absurd ⟨s, hs', hPs⟩ hP

theorem treeInv_leaves_ne_nil {ss : List ZSurface} {t : ZTree}
    (hinv : TreeInv ss t) :
    ∀ kn ∈ t.nodes, ∀ l ∈ kn.2.leaves, l.area ≠ [] := by
  intro kn hkn l hl
  obtain ⟨s, _, _, l', hleaves, hLI⟩ := hinv.2.1 kn hkn
  rw [hleaves] at hl
  simp only [List.mem_singleton] at hl
  subst hl
  by_cases hpos : s.area.posRect
  · exact (hLI.2.2.2.1 hpos).1
  · rw [hLI.2.2.2.2 hpos]
    simp

theorem upperLeaves_ne_nil {ss : List ZSurface} {t : ZTree}
    (hinv : TreeInv ss t) (z : Int) :
    ∀ u ∈ t.upperLeaves z, u.area ≠ [] := by
  intro u hu
  unfold ZTree.upperLeaves at hu
  simp only [List.mem_flatMap] at hu
  obtain ⟨kn, hknf, hul⟩ := hu
  exact treeInv_leaves_ne_nil hinv kn (List.mem_filter.mp hknf).1 u hul

/-- The masking the newcomer experiences from the tree's strictly higher
leaves is exactly coverage by the strictly higher surfaces of `ss`. -/
theorem maskSet_iff_upperUnion {ss : List ZSurface} {t : ZTree}
    (hinv : TreeInv ss t) (hz : zdistinct ss) (hr : rangeOK ss)
    (z x y : Int) :
    maskSetPt (t.upperLeaves z) x y ↔ upperUnionPt ss z x y := by
  obtain ⟨hsort, h2, h3⟩ := hinv
  constructor
  · rintro ⟨u, hu, b, hb, hm⟩
    unfold ZTree.upperLeaves at hu
    simp only [List.mem_flatMap] at hu
    obtain ⟨kn, hknf, hul⟩ := hu
    have hkn := (List.mem_filter.mp hknf).1
    have hzk : z < kn.1 := by simpa using (List.mem_filter.mp hknf).2
    obtain ⟨s', hs', hsz, l, hleaves, hLI⟩ := h2 kn hkn
    rw [hleaves] at hul
    simp only [List.mem_singleton] at hul
    subst hul
    have hsub : b.subRect s'.area := bounds_subRect hLI.2.2.1 (hr s' hs') hb
    exact ⟨s', hs', by omega, memPt_of_subRect hsub hm⟩
  · intro hup
    obtain ⟨sm, hsm, ⟨hzm, hmm⟩, hmax⟩ :=
      exists_max_z (P := fun s' => z < s'.z_index ∧ s'.area.memPt x y) hup
    have hvism : visPt ss sm x y := by
      refine ⟨hmm, ?_⟩
      rintro ⟨s'', hs'', hz'', hm''⟩
      have := hmax s'' hs'' ⟨by omega, hm''⟩
      omega
    obtain ⟨kn, hkn, hknz⟩ := h3 sm hsm (Or.inr ⟨x, y, hvism⟩)
    obtain ⟨s', hs', hsz, l, hleaves, hLI⟩ := h2 kn hkn
    have heq : s' = sm := zdistinct_unique hz hs' hsm (by omega)
    subst heq
    have hcov : SplitRect.coveredPt l.area x y := (hLI.2.1 x y).mpr hvism
    obtain ⟨q, hq, hqm⟩ := hcov
    have hlne : l.area ≠ [] := by
      intro h
      rw [h] at hq
      cases hq
    obtain ⟨b, hb⟩ : ∃ b, SplitRect.bounds l.area = some b := by
      cases hbb : SplitRect.bounds l.area with
      | none => exact absurd ((bounds_eq_none_iff _).mp hbb) hlne
      | some b => exact ⟨b, rfl⟩
    refine ⟨l, ?_, b, hb, bounds_memPt hb hq hqm⟩
    unfold ZTree.upperLeaves
    simp only [List.mem_flatMap]
    refine ⟨kn, List.mem_filter.mpr ⟨hkn, ?_⟩, ?_⟩
    · simp only [decide_eq_true_eq]
      omega
    · rw [hleaves]
      simp

end TreeInvariant

section InsertPreservesInv

theorem coveredPt_singleton (r : Rect) (x y : Int) :
    SplitRect.coveredPt [r] x y ↔ r.memPt x y := by
  unfold SplitRect.coveredPt
  constructor
  · rintro ⟨q, hq, hm⟩
    simp only [List.mem_singleton] at hq
    subst hq
    exact hm
  · intro h
    exact ⟨r, by simp, h⟩

theorem mask_with_singleton_not_pos {r : Rect} (h : ¬ r.posRect) (B : Rect) :
    SplitRect.mask_with [r] B = [r] := by
  unfold SplitRect.mask_with
  rw [List.flatMap_cons, mask_rect_of_not_posRect h, List.flatMap_nil,
    List.append_nil]

theorem pairwise_filterMap_keys {l : List (Int × ZNode)}
    {g : Int × ZNode → Option (Int × ZNode)}
    (hg : ∀ p q, g p = some q → q.1 = p.1)
    (h : l.Pairwise (fun a b => a.1 < b.1)) :
    (l.filterMap g).Pairwise (fun a b => a.1 < b.1) := by
  induction l with
  | nil => exact List.Pairwise.nil
  | cons a l ih =>
    rw [List.pairwise_cons] at h
    rw [List.filterMap_cons]
    cases hga : g a with
    | none => exact ih h.2
    | some b =>
      refine List.Pairwise.cons ?_ (ih h.2)
      intro c hc
      rw [List.mem_filterMap] at hc
      obtain ⟨p, hp, hgp⟩ := hc
      rw [hg a b hga, hg p c hgp]
      exact h.1 p hp

theorem filterMap_eq_self_of {α : Type} {l : List α} {f : α → Option α}
    (h : ∀ a ∈ l, f a = some a) : l.filterMap f = l := by
  induction l with
  | nil => rfl
  | cons a l ih =>
    rw [List.filterMap_cons, h a (List.mem_cons_self _ _),
      ih (fun a' ha' => h a' (List.mem_cons_of_mem _ ha'))]

theorem mem_singleton_ne_nil {l : ZLeaf} : ([l] : List ZLeaf) ≠ [] := by simp

theorem mask_all_singleton (n : ZNode) (l' : ZLeaf) (nl : ZLeaf)
    (h : n.leaves = [l']) :
    ZNode.mask_all n nl = ZNode.mk (match ZLeaf.mask l' nl with
      | some l'' => [l'']
      | none => []) := by
  unfold ZNode.mask_all
  rw [h]
  cases hm : ZLeaf.mask l' nl with
  | none => rw [List.filterMap_cons, hm]; rfl
  | some l'' => rw [List.filterMap_cons, hm]; rfl

/-- The heart of C5: inserting `s` into a tree that faithfully represents
the surface set `ss` yields a tree that faithfully represents `s :: ss`. -/
theorem insert_preserves_TreeInv {ss : List ZSurface} {t : ZTree}
    (s : ZSurface) (hinv : TreeInv ss t) (hz : zdistinct (s :: ss))
    (hr : rangeOK (s :: ss)) : TreeInv (s :: ss) (ZTree.insert t s).2 := by
  have hz' := hz
  rw [zdistinct, List.pairwise_cons] at hz'
  have hzss : zdistinct ss := hz'.2
  have hzs : ∀ s' ∈ ss, s.z_index ≠ s'.z_index := hz'.1
  have hrss : rangeOK ss := fun s' h' => hr s' (List.mem_cons_of_mem _ h')
  have hrs : s.area.inI32Range := hr s (List.mem_cons_self _ _)
  have hup_ne := upperLeaves_ne_nil hinv s.z_index
  have hmaskIff := maskSet_iff_upperUnion hinv hzss hrss s.z_index
  have hnobucket : ∀ kn ∈ t.nodes, kn.1 ≠ s.z_index := by
    intro kn hkn heq
    obtain ⟨s', hs', hsz, _⟩ := hinv.2.1 kn hkn
    exact hzs s' hs' (by omega)
  have hcov0 := coveredPt_singleton s.area
  have hvis_upper : ∀ s', s.z_index ≤ s'.z_index → ∀ x y,
      visPt (s :: ss) s' x y ↔ visPt ss s' x y := by
    intro s' hle x y
    unfold visPt
    rw [upperUnion_cons]
    constructor
    · rintro ⟨hm, hn⟩
      exact ⟨hm, fun h => hn (Or.inr h)⟩
    · rintro ⟨hm, hn⟩
      refine ⟨hm, ?_⟩
      rintro (⟨hlt, _⟩ | h)
      · omega
      · exact hn h
  have hvis_self : ∀ x y, visPt (s :: ss) s x y ↔
      (s.area.memPt x y ∧ ¬ upperUnionPt ss s.z_index x y) := by
    intro x y
    unfold visPt
    rw [upperUnion_cons]
    constructor
    · rintro ⟨hm, hn⟩
      exact ⟨hm, fun h => hn (Or.inr h)⟩
    · rintro ⟨hm, hn⟩
      refine ⟨hm, ?_⟩
      rintro (⟨hlt, _⟩ | h)
      · omega
      · exact hn h
  have hvis_lower : ∀ s', s'.z_index < s.z_index → ∀ x y,
      visPt (s :: ss) s' x y ↔ (visPt ss s' x y ∧ ¬ s.area.memPt x y) := by
    intro s' hlt x y
    unfold visPt
    rw [upperUnion_cons]
    constructor
    · rintro ⟨hm, hn⟩
      exact ⟨⟨hm, fun h => hn (Or.inr h)⟩, fun h => hn (Or.inl ⟨hlt, h⟩)⟩
    · rintro ⟨⟨hm, hn⟩, hns⟩
      refine ⟨hm, ?_⟩
      rintro (⟨_, h⟩ | h)
      · exact hns h
      · exact hn h
  by_cases hpos : s.area.posRect
  -- ======================= positive newcomer =======================
  · have hinit_pos : ∀ q ∈ ([s.area] : SplitRect), q.posRect := by
      intro q hq
      simp only [List.mem_singleton] at hq
      subst hq
      exact hpos
    rcases foldlM_mask_spec (t.upperLeaves s.z_index) ⟨s.reference, [s.area]⟩
        hup_ne (by simp) hinit_pos with
      ⟨hfold, hcond⟩ | ⟨nl, hfold, hnlref, hnlne, hnlpos, hnlcov⟩
    -- ---------- fully hidden: tree unchanged ----------
    · rw [insert_hidden_returns_false_tree_unchanged t s hfold]
      have hhidden : ∀ x y, s.area.memPt x y →
          upperUnionPt ss s.z_index x y := by
        intro x y hm
        by_contra hnu
        refine hcond x y ⟨(hcov0 x y).mpr hm, ?_⟩
        rw [hmaskIff x y]
        exact hnu
      have hvis_eq : ∀ s' ∈ ss, ∀ x y,
          visPt (s :: ss) s' x y ↔ visPt ss s' x y := by
        intro s' hs' x y
        by_cases hlt : s'.z_index < s.z_index
        · rw [hvis_lower s' hlt]
          constructor
          · rintro ⟨h1, _⟩
            exact h1
          · intro h1
            refine ⟨h1, ?_⟩
            intro hm
            exact h1.2 (upperUnion_mono (le_of_lt hlt) (hhidden x y hm))
        · exact hvis_upper s' (by omega) x y
      refine ⟨hinv.1, ?_, ?_⟩
      · intro kn hkn
        obtain ⟨s', hs', hsz, l, hleaves, hLI1, hLI2, hLI3, hLI4, hLI5⟩ :=
          hinv.2.1 kn hkn
        exact ⟨s', List.mem_cons_of_mem _ hs', hsz, l, hleaves, hLI1,
          fun x y => (hLI2 x y).trans (hvis_eq s' hs' x y).symm, hLI3, hLI4, hLI5⟩
      · intro s' hs' hcondS
        rcases List.mem_cons.mp hs' with rfl | hs''
        · rcases hcondS with hnp | ⟨x, y, hv⟩
          · exact absurd hpos hnp
          · rw [hvis_self x y] at hv
            exact absurd (hhidden x y hv.1) hv.2
        · apply hinv.2.2 s' hs''
          rcases hcondS with hnp | ⟨x, y, hv⟩
          · exact Or.inl hnp
          · exact Or.inr ⟨x, y, (hvis_eq s' hs'' x y).mp hv⟩
    -- ---------- visible: tree rebuilt ----------
    · rw [insert_eq_of_fold_some t s nl hfold]
      have hnlsub : ∀ q ∈ nl.area, q.subRect s.area := by
        intro q hq
        obtain ⟨q0, hq0, hsub⟩ := foldlM_mask_sub _ _ nl hfold q hq
        simp only [List.mem_singleton] at hq0
        subst hq0
        exact hsub
      have hnlcov' : ∀ x y, SplitRect.coveredPt nl.area x y ↔
          visPt (s :: ss) s x y := by
        intro x y
        rw [hnlcov x y, hcov0 x y, hmaskIff x y, hvis_self x y]
      obtain ⟨B, hB⟩ : ∃ b, SplitRect.bounds nl.area = some b := by
        cases hbb : SplitRect.bounds nl.area with
        | none => exact absurd ((bounds_eq_none_iff _).mp hbb) hnlne
        | some b => exact ⟨b, rfl⟩
      have hBsub : B.subRect s.area := bounds_subRect hnlsub hrs hB
      have hcovB : ∀ x y, SplitRect.coveredPt nl.area x y → B.memPt x y := by
        rintro x y ⟨q, hq, hm⟩
        exact bounds_memPt hB hq hm
      have hBvis : ∀ x y, s.area.memPt x y → ¬ B.memPt x y →
          upperUnionPt ss s.z_index x y := by
        intro x y hm hnB
        by_contra hnu
        exact hnB (hcovB x y ((hnlcov' x y).mpr ((hvis_self x y).mpr ⟨hm, hnu⟩)))
      -- the masked lower leaf, characterised
      have hmasklower : ∀ (s' : ZSurface) (l' : ZLeaf), s'.z_index < s.z_index →
          LeafInv ss s' l' →
          ((∀ x y, SplitRect.coveredPt (SplitRect.mask_with l'.area B) x y ↔
              visPt (s :: ss) s' x y) ∧
           (∀ q ∈ SplitRect.mask_with l'.area B, q.subRect s'.area) ∧
           (s'.area.posRect → ∀ q ∈ SplitRect.mask_with l'.area B, q.posRect) ∧
           (¬ s'.area.posRect → SplitRect.mask_with l'.area B = [s'.area])) := by
        intro s' l' hlt ⟨hLI1, hLI2, hLI3, hLI4, hLI5⟩
        refine ⟨?_, ?_, ?_, ?_⟩
        · intro x y
          rw [mask_with_coveredPt, hLI2 x y, hvis_lower s' hlt]
          constructor
          · rintro ⟨hv, hnB⟩
            refine ⟨hv, ?_⟩
            intro hsm
            rcases hBvis x y hsm hnB with hup
            exact hv.2 (upperUnion_mono (le_of_lt hlt) hup)
          · rintro ⟨hv, hns⟩
            refine ⟨hv, ?_⟩
            intro hB'
            exact hns (memPt_of_subRect hBsub hB')
        · intro q hq
          obtain ⟨q0, hq0, hsub⟩ := mask_with_sub l'.area B q hq
          exact subRect_trans hsub (hLI3 q0 hq0)
        · intro hp
          exact mask_with_pos (hLI4 hp).2
        · intro hnp
          rw [hLI5 hnp]
          exact mask_with_singleton_not_pos hnp B
      -- shape of the upper part
      have hany : ¬ ((t.nodes.filter (fun kn => decide (s.z_index ≤ kn.1))).any
          (fun kn => decide (kn.1 = s.z_index)) = true) := by
        rw [List.any_eq_true]
        rintro ⟨kn, hknf, hkne⟩
        have hkn := (List.mem_filter.mp hknf).1
        simp only [decide_eq_true_eq] at hkne
        exact hnobucket kn hkn hkne
      have hupper : t.upperWithNew s.z_index nl =
          (s.z_index, ZNode.mk [nl]) ::
            t.nodes.filter (fun kn => decide (s.z_index ≤ kn.1)) := by
        unfold ZTree.upperWithNew
        rw [if_neg hany]
      rw [hupper]
      refine ⟨?_, ?_, ?_⟩
      -- -------- (1) sortedness --------
      · rw [List.pairwise_append]
        refine ⟨?_, ?_, ?_⟩
        · apply pairwise_filterMap_keys
          · intro p q hpq
            split at hpq
            · cases hpq
            · injection hpq with hpq
              rw [← hpq]
          · exact List.Pairwise.sublist (List.filter_sublist _) hinv.1
        · refine List.Pairwise.cons ?_
            (List.Pairwise.sublist (List.filter_sublist _) hinv.1)
          intro kn hkn
          have h1 := (List.mem_filter.mp hkn).1
          have h2 := (List.mem_filter.mp hkn).2
          simp only [decide_eq_true_eq] at h2
          have := hnobucket kn h1
          simp only
          omega
        · intro a ha b hb
          have hal := lowerMasked_keys t s.z_index nl a ha
          rcases List.mem_cons.mp hb with rfl | hb'
          · exact hal
          · have := (List.mem_filter.mp hb').2
            simp only [decide_eq_true_eq] at this
            omega
      -- -------- (2) bucket characterisation --------
      · intro kn hkn
        rcases List.mem_append.mp hkn with hknl | hknu
        · -- lower, masked
          unfold ZTree.lowerMasked at hknl
          rw [List.mem_filterMap] at hknl
          obtain ⟨kn0, hkn0f, hsome⟩ := hknl
          have hkn0 := (List.mem_filter.mp hkn0f).1
          have hkn0z : kn0.1 < s.z_index := by
            have := (List.mem_filter.mp hkn0f).2
            simpa using this
          obtain ⟨s', hs', hsz, l', hleaves, hLI⟩ := hinv.2.1 kn0 hkn0
          have hmae := mask_all_singleton kn0.2 l' nl hleaves
          have hmaskl' := mask_eq_of_bounds (l := l') hB
          have hlt : s'.z_index < s.z_index := by omega
          obtain ⟨hc1, hc2, hc3, hc4⟩ := hmasklower s' l' hlt hLI
          by_cases hAe : SplitRect.mask_with l'.area B = []
          · exfalso
            rw [hmaskl'] at hmae
            rw [hAe] at hmae
            simp only [List.isEmpty_nil, if_true] at hmae
            rw [hmae] at hsome
            simp at hsome
          · rw [hmaskl'] at hmae
            rw [if_neg (by simpa using hAe)] at hmae
            rw [hmae] at hsome
            simp only [List.isEmpty_cons, if_neg] at hsome
            rw [if_neg (by simp)] at hsome
            injection hsome with hsome
            subst hsome
            refine ⟨s', List.mem_cons_of_mem _ hs', by simpa using hsz,
              ⟨l'.reference, SplitRect.mask_with l'.area B⟩, rfl, ?_⟩
            refine ⟨hLI.1, hc1, hc2, ?_, ?_⟩
            · intro hp
              exact ⟨hAe, hc3 hp⟩
            · intro hnp
              exact hc4 hnp
        · rcases List.mem_cons.mp hknu with rfl | hknu'
          · -- the newcomer's bucket
            refine ⟨s, List.mem_cons_self _ _, rfl, nl, rfl, ?_⟩
            refine ⟨hnlref, hnlcov', hnlsub, fun _ => ⟨hnlne, hnlpos⟩,
              fun hnp => absurd hpos hnp⟩
          · -- untouched upper bucket
            have hkn1 := (List.mem_filter.mp hknu').1
            have hkn1z : s.z_index ≤ kn.1 := by
              have := (List.mem_filter.mp hknu').2
              simpa using this
            obtain ⟨s', hs', hsz, l, hleaves, hLI1, hLI2, hLI3, hLI4, hLI5⟩ :=
              hinv.2.1 kn hkn1
            refine ⟨s', List.mem_cons_of_mem _ hs', hsz, l, hleaves, hLI1,
              ?_, hLI3, hLI4, hLI5⟩
            intro x y
            rw [hLI2 x y]
            exact (hvis_upper s' (by omega) x y).symm
      -- -------- (3) presence --------
      · intro s'' hs'' hcondS
        rcases List.mem_cons.mp hs'' with rfl | hs₂
        · refine ⟨(s''.z_index, ZNode.mk [nl]), ?_, rfl⟩
          exact List.mem_append.mpr (Or.inr (List.mem_cons_self _ _))
        · by_cases hlt : s''.z_index < s.z_index
          · -- lower: its masked bucket survives
            have hvss : (¬ s''.area.posRect ∨ ∃ x y, visPt ss s'' x y) := by
              rcases hcondS with hnp | ⟨x, y, hv⟩
              · exact Or.inl hnp
              · rw [hvis_lower s'' hlt] at hv
                exact Or.inr ⟨x, y, hv.1⟩
            obtain ⟨kn0, hkn0, hkn0z⟩ := hinv.2.2 s'' hs₂ hvss
            obtain ⟨s₀, hs₀, hs₀z, l', hleaves, hLI⟩ := hinv.2.1 kn0 hkn0
            have heq : s₀ = s'' := zdistinct_unique hzss hs₀ hs₂ (by omega)
            subst heq
            obtain ⟨hc1, hc2, hc3, hc4⟩ := hmasklower s₀ l' hlt hLI
            have hAne : SplitRect.mask_with l'.area B ≠ [] := by
              by_cases hp : s₀.area.posRect
              · rcases hcondS with hnp | ⟨x, y, hv⟩
                · exact absurd hp hnp
                · intro hAe
                  have := (hc1 x y).mpr hv
                  rw [hAe] at this
                  obtain ⟨q, hq, _⟩ := this
                  cases hq
              · rw [hc4 hp]
                simp
            refine ⟨(kn0.1, ZNode.mk [⟨l'.reference,
              SplitRect.mask_with l'.area B⟩]), ?_, by omega⟩
            apply List.mem_append.mpr
            left
            unfold ZTree.lowerMasked
            rw [List.mem_filterMap]
            refine ⟨kn0, List.mem_filter.mpr ⟨hkn0, by simp; omega⟩, ?_⟩
            have hmae := mask_all_singleton kn0.2 l' nl hleaves
            have hmaskl' := mask_eq_of_bounds (l := l') hB
            rw [hmaskl'] at hmae
            rw [if_neg (by simpa using hAne)] at hmae
            rw [hmae]
            rw [if_neg (by simp)]
          · -- upper: its bucket is carried over unchanged
            have hgt : s.z_index < s''.z_index := by
              have := hzs s'' hs₂
              omega
            have hvss : (¬ s''.area.posRect ∨ ∃ x y, visPt ss s'' x y) := by
              rcases hcondS with hnp | ⟨x, y, hv⟩
              · exact Or.inl hnp
              · rw [hvis_upper s'' (by omega) x y] at hv
                exact Or.inr ⟨x, y, hv⟩
            obtain ⟨kn0, hkn0, hkn0z⟩ := hinv.2.2 s'' hs₂ hvss
            refine ⟨kn0, ?_, hkn0z⟩
            apply List.mem_append.mpr
            right
            apply List.mem_cons_of_mem
            exact List.mem_filter.mpr ⟨hkn0, by simp; omega⟩
  -- ======================= degenerate newcomer =======================
  · have hfold := foldlM_mask_degenerate hpos s.reference
      (t.upperLeaves s.z_index) hup_ne
    rw [insert_eq_of_fold_some t s ⟨s.reference, [s.area]⟩ hfold]
    have hnom : ∀ x y, ¬ s.area.memPt x y := not_memPt_of_not_posRect hpos
    have hB : SplitRect.bounds ([s.area] : SplitRect) = some s.area :=
      bounds_singleton hrs
    have hmaskid : ∀ l' : ZLeaf, l'.area ≠ [] →
        ZLeaf.mask l' ⟨s.reference, [s.area]⟩ = some l' := by
      intro l' hl'
      rw [mask_eq_of_bounds (l := l') hB]
      rw [mask_with_not_posRect hpos]
      rw [if_neg (by simpa using hl')]
    have hvis_eq : ∀ (s' : ZSurface), ∀ x y,
        visPt (s :: ss) s' x y ↔ visPt ss s' x y := by
      intro s' x y
      unfold visPt
      rw [upperUnion_cons]
      constructor
      · rintro ⟨hm, hn⟩
        exact ⟨hm, fun h => hn (Or.inr h)⟩
      · rintro ⟨hm, hn⟩
        refine ⟨hm, ?_⟩
        rintro (⟨_, h⟩ | h)
        · exact hnom x y h
        · exact hn h
    have hlower : t.lowerMasked s.z_index ⟨s.reference, [s.area]⟩ =
        t.nodes.filter (fun kn => decide (kn.1 < s.z_index)) := by
      unfold ZTree.lowerMasked
      apply filterMap_eq_self_of
      intro kn hknf
      have hkn := (List.mem_filter.mp hknf).1
      obtain ⟨s', hs', hsz, l', hleaves, hLI⟩ := hinv.2.1 kn hkn
      have hl'ne : l'.area ≠ [] := by
        apply treeInv_leaves_ne_nil hinv kn hkn
        rw [hleaves]
        simp
      have hmae := mask_all_singleton kn.2 l' ⟨s.reference, [s.area]⟩ hleaves
      rw [hmaskid l' hl'ne] at hmae
      rw [hmae]
      rw [if_neg (by simp)]
      dsimp only
      rw [← hleaves]
    have hany : ¬ ((t.nodes.filter (fun kn => decide (s.z_index ≤ kn.1))).any
        (fun kn => decide (kn.1 = s.z_index)) = true) := by
      rw [List.any_eq_true]
      rintro ⟨kn, hknf, hkne⟩
      have hkn := (List.mem_filter.mp hknf).1
      simp only [decide_eq_true_eq] at hkne
      exact hnobucket kn hkn hkne
    have hupper : t.upperWithNew s.z_index ⟨s.reference, [s.area]⟩ =
        (s.z_index, ZNode.mk [⟨s.reference, [s.area]⟩]) ::
          t.nodes.filter (fun kn => decide (s.z_index ≤ kn.1)) := by
      unfold ZTree.upperWithNew
      rw [if_neg hany]
    rw [hlower, hupper]
    refine ⟨?_, ?_, ?_⟩
    · rw [List.pairwise_append]
      refine ⟨List.Pairwise.sublist (List.filter_sublist _) hinv.1, ?_, ?_⟩
      · refine List.Pairwise.cons ?_
          (List.Pairwise.sublist (List.filter_sublist _) hinv.1)
        intro kn hkn
        have h1 := (List.mem_filter.mp hkn).1
        have h2 := (List.mem_filter.mp hkn).2
        simp only [decide_eq_true_eq] at h2
        have := hnobucket kn h1
        simp only
        omega
      · intro a ha b hb
        have hal := (List.mem_filter.mp ha).2
        simp only [decide_eq_true_eq] at hal
        rcases List.mem_cons.mp hb with rfl | hb'
        · exact hal
        · have := (List.mem_filter.mp hb').2
          simp only [decide_eq_true_eq] at this
          omega
    · intro kn hkn
      rcases List.mem_append.mp hkn with hknl | hknu
      · have hkn0 := (List.mem_filter.mp hknl).1
        obtain ⟨s', hs', hsz, l, hleaves, hLI1, hLI2, hLI3, hLI4, hLI5⟩ :=
          hinv.2.1 kn hkn0
        exact ⟨s', List.mem_cons_of_mem _ hs', hsz, l, hleaves, hLI1,
          fun x y => (hLI2 x y).trans (hvis_eq s' x y).symm, hLI3, hLI4, hLI5⟩
      · rcases List.mem_cons.mp hknu with rfl | hknu'
        · refine ⟨s, List.mem_cons_self _ _, rfl, ⟨s.reference, [s.area]⟩,
            rfl, rfl, ?_, ?_, fun hp => absurd hp hpos, fun _ => rfl⟩
          · intro x y
            rw [hcov0 x y]
            constructor
            · intro h
              exact absurd h (hnom x y)
            · rintro ⟨h, _⟩
              exact absurd h (hnom x y)
          · intro q hq
            simp only [List.mem_singleton] at hq
            subst hq
            exact subRect_refl _
        · have hkn1 := (List.mem_filter.mp hknu').1
          obtain ⟨s', hs', hsz, l, hleaves, hLI1, hLI2, hLI3, hLI4, hLI5⟩ :=
            hinv.2.1 kn hkn1
          exact ⟨s', List.mem_cons_of_mem _ hs', hsz, l, hleaves, hLI1,
            fun x y => (hLI2 x y).trans (hvis_eq s' x y).symm, hLI3, hLI4, hLI5⟩
    · intro s'' hs'' hcondS
      rcases List.mem_cons.mp hs'' with rfl | hs₂
      · refine ⟨(s''.z_index, ZNode.mk [⟨s''.reference, [s''.area]⟩]), ?_, rfl⟩
        exact List.mem_append.mpr (Or.inr (List.mem_cons_self _ _))
      · have hvss : (¬ s''.area.posRect ∨ ∃ x y, visPt ss s'' x y) := by
          rcases hcondS with hnp | ⟨x, y, hv⟩
          · exact Or.inl hnp
          · exact Or.inr ⟨x, y, (hvis_eq s'' x y).mp hv⟩
        obtain ⟨kn0, hkn0, hkn0z⟩ := hinv.2.2 s'' hs₂ hvss
        refine ⟨kn0, ?_, hkn0z⟩
        apply List.mem_append.mpr
        have hne : kn0.1 ≠ s.z_index := hnobucket kn0 hkn0
        by_cases hlt : kn0.1 < s.z_index
        · left
          exact List.mem_filter.mpr ⟨hkn0, by simp; omega⟩
        · right
          apply List.mem_cons_of_mem
          exact List.mem_filter.mpr ⟨hkn0, by simp; omega⟩

end InsertPreservesInv

section OrderIndependence

theorem buildTree_TreeInv :
    ∀ (rest ps : List ZSurface) (t : ZTree), TreeInv ps t →
      zdistinct (rest ++ ps) → rangeOK (rest ++ ps) →
      TreeInv (rest.reverse ++ ps)
        (rest.foldl (fun t s => (ZTree.insert t s).2) t) := by
  intro rest
  induction rest with
  | nil =>
    intro ps t h _ _
    simpa using h
  | cons s rest ih =>
    intro ps t h hz hr
    rw [List.foldl_cons]
    have hzc : zdistinct (s :: (rest ++ ps)) := by simpa using hz
    have hrc : rangeOK (s :: (rest ++ ps)) := by simpa using hr
    have hzcons : zdistinct (s :: ps) := by
      unfold zdistinct at hzc ⊢
      rw [List.pairwise_cons] at hzc ⊢
      refine ⟨?_, ?_⟩
      · intro s' hs'
        exact hzc.1 s' (List.mem_append.mpr (Or.inr hs'))
      · exact List.Pairwise.sublist (List.sublist_append_right _ _) hzc.2
    have hrcons : rangeOK (s :: ps) := by
      intro s' hs'
      rcases List.mem_cons.mp hs' with rfl | hs''
      · exact hrc s' (List.mem_cons_self _ _)
      · exact hrc s' (List.mem_cons_of_mem _ (List.mem_append.mpr (Or.inr hs'')))
    have hsymm : Symmetric (fun a b : ZSurface => a.z_index ≠ b.z_index) := by
      intro a b hab e
      exact hab e.symm
    have hzmid : zdistinct (rest ++ s :: ps) := by
      unfold zdistinct at hzc ⊢
      exact (List.perm_middle.pairwise_iff (fun hab e => hab e.symm)).mpr hzc
    have hrmid : rangeOK (rest ++ s :: ps) := by
      intro s' hs'
      apply hrc s'
      have hperm : List.Perm (rest ++ s :: ps) (s :: (rest ++ ps)) :=
        List.perm_middle
      exact hperm.mem_iff.mp hs'
    have := ih (s :: ps) _ (insert_preserves_TreeInv s h hzcons hrcons)
      hzmid hrmid
    simpa [List.reverse_cons, List.append_assoc] using this

theorem sorted_int_mem_eq : ∀ (l1 l2 : List Int),
    l1.Pairwise (· < ·) → l2.Pairwise (· < ·) →
    (∀ a, a ∈ l1 ↔ a ∈ l2) → l1 = l2 := by
  intro l1
  induction l1 with
  | nil =>
    intro l2 _ _ h
    cases l2 with
    | nil => rfl
    | cons b l2 =>
      have := (h b).mpr (List.mem_cons_self _ _)
      cases this
  | cons a l1 ih =>
    intro l2 h1 h2 h
    cases l2 with
    | nil =>
      have := (h a).mp (List.mem_cons_self _ _)
      cases this
    | cons b l2 =>
      rw [List.pairwise_cons] at h1 h2
      have hab : a = b := by
        have ha := (h a).mp (List.mem_cons_self _ _)
        have hb := (h b).mpr (List.mem_cons_self _ _)
        rcases List.mem_cons.mp ha with h' | h'
        · exact h'
        · rcases List.mem_cons.mp hb with h'' | h''
          · exact h''.symm
          · have hba := h2.1 a h'
            have hab2 := h1.1 b h''
            omega
      subst hab
      congr 1
      apply ih l2 h1.2 h2.2
      intro c
      constructor
      · intro hc
        have := (h c).mp (List.mem_cons_of_mem _ hc)
        rcases List.mem_cons.mp this with rfl | h'
        · exact absurd (h1.1 c hc) (lt_irrefl c)
        · exact h'
      · intro hc
        have := (h c).mpr (List.mem_cons_of_mem _ hc)
        rcases List.mem_cons.mp this with rfl | h'
        · exact absurd (h2.1 c hc) (lt_irrefl c)
        · exact h'

/-- One bucket's contribution to `flatten`. -/
def flattenBlock (kn : Int × ZNode) : List ZSurface :=
  kn.2.leaves.filterMap (fun l =>
    (SplitRect.bounds l.area).map (fun area => ZSurface.mk kn.1 l.reference area))

theorem flatten_eq_flatMap (t : ZTree) :
    ZTree.flatten t = t.nodes.flatMap flattenBlock := rfl

theorem flatMap_eq_of_keys :
    ∀ (ns1 ns2 : List (Int × ZNode)),
      ns1.map Prod.fst = ns2.map Prod.fst →
      (∀ kn1 ∈ ns1, ∀ kn2 ∈ ns2, kn1.1 = kn2.1 →
        flattenBlock kn1 = flattenBlock kn2) →
      ns1.flatMap flattenBlock = ns2.flatMap flattenBlock := by
  intro ns1
  induction ns1 with
  | nil =>
    intro ns2 hk _
    cases ns2 with
    | nil => rfl
    | cons b ns2 => simp at hk
  | cons a ns1 ih =>
    intro ns2 hk hp
    cases ns2 with
    | nil => simp at hk
    | cons b ns2 =>
      simp only [List.map_cons, List.cons.injEq] at hk
      rw [List.flatMap_cons, List.flatMap_cons]
      rw [hp a (List.mem_cons_self _ _) b (List.mem_cons_self _ _) hk.1]
      rw [ih ns2 hk.2 (fun kn1 h1 kn2 h2 he =>
        hp kn1 (List.mem_cons_of_mem _ h1) kn2 (List.mem_cons_of_mem _ h2) he)]

/-- Two trees that faithfully represent the same surface set flatten to
the same output. -/
theorem flatten_eq_of_TreeInv {ssA ssB : List ZSurface} {t1 t2 : ZTree}
    (hA : TreeInv ssA t1) (hB : TreeInv ssB t2)
    (hmem : ∀ s, s ∈ ssA ↔ s ∈ ssB)
    (hzA : zdistinct ssA) (hzB : zdistinct ssB) :
    ZTree.flatten t1 = ZTree.flatten t2 := by
  have hpresence : ∀ {ss : List ZSurface} {t : ZTree}, TreeInv ss t →
      ∀ kn ∈ t.nodes, ∃ s ∈ ss, s.z_index = kn.1 ∧
        (¬ s.area.posRect ∨ ∃ x y, visPt ss s x y) := by
    intro ss t hT kn hkn
    obtain ⟨s, hs, hsz, l, hleaves, hLI⟩ := hT.2.1 kn hkn
    refine ⟨s, hs, hsz, ?_⟩
    by_cases hp : s.area.posRect
    · right
      obtain ⟨hlne, hlpos⟩ := hLI.2.2.2.1 hp
      obtain ⟨x, y, hcov⟩ := covered_of_pos_nonempty hlpos hlne
      exact ⟨x, y, (hLI.2.1 x y).mp hcov⟩
    · exact Or.inl hp
  have hkeys : t1.nodes.map Prod.fst = t2.nodes.map Prod.fst := by
    apply sorted_int_mem_eq
    · exact List.Pairwise.map Prod.fst (fun a b h => h) hA.1
    · exact List.Pairwise.map Prod.fst (fun a b h => h) hB.1
    · intro z
      constructor
      · intro hz1
        rw [List.mem_map] at hz1
        obtain ⟨kn, hkn, hk⟩ := hz1
        obtain ⟨s, hs, hsz, hcond⟩ := hpresence hA kn hkn
        have hcond' : ¬ s.area.posRect ∨ ∃ x y, visPt ssB s x y := by
          rcases hcond with hnp | ⟨x, y, hv⟩
          · exact Or.inl hnp
          · exact Or.inr ⟨x, y, (visPt_ext hmem s x y).mp hv⟩
        obtain ⟨kn2, hkn2, hkz⟩ := hB.2.2 s ((hmem s).mp hs) hcond'
        rw [List.mem_map]
        refine ⟨kn2, hkn2, ?_⟩
        omega
      · intro hz2
        rw [List.mem_map] at hz2
        obtain ⟨kn, hkn, hk⟩ := hz2
        obtain ⟨s, hs, hsz, hcond⟩ := hpresence hB kn hkn
        have hcond' : ¬ s.area.posRect ∨ ∃ x y, visPt ssA s x y := by
          rcases hcond with hnp | ⟨x, y, hv⟩
          · exact Or.inl hnp
          · exact Or.inr ⟨x, y, (visPt_ext hmem s x y).mpr hv⟩
        obtain ⟨kn2, hkn2, hkz⟩ := hA.2.2 s ((hmem s).mpr hs) hcond'
        rw [List.mem_map]
        refine ⟨kn2, hkn2, ?_⟩
        omega
  rw [flatten_eq_flatMap, flatten_eq_flatMap]
  apply flatMap_eq_of_keys _ _ hkeys
  intro kn1 h1 kn2 h2 hkeq
  obtain ⟨s1, hs1, hsz1, l1, hl1, hLI1⟩ := hA.2.1 kn1 h1
  obtain ⟨s2, hs2, hsz2, l2, hl2, hLI2⟩ := hB.2.1 kn2 h2
  have hseq : s1 = s2 :=
    zdistinct_unique hzA hs1 ((hmem s2).mpr hs2) (by omega)
  subst hseq
  have href : l1.reference = l2.reference := by
    rw [hLI1.1, hLI2.1]
  have hbeq : SplitRect.bounds l1.area = SplitRect.bounds l2.area := by
    by_cases hp : s1.area.posRect
    · obtain ⟨hne1, hpos1⟩ := hLI1.2.2.2.1 hp
      obtain ⟨hne2, hpos2⟩ := hLI2.2.2.2.1 hp
      obtain ⟨b1, hb1⟩ : ∃ b, SplitRect.bounds l1.area = some b := by
        cases hbb : SplitRect.bounds l1.area with
        | none => exact absurd ((bounds_eq_none_iff _).mp hbb) hne1
        | some b => exact ⟨b, rfl⟩
      obtain ⟨b2, hb2⟩ : ∃ b, SplitRect.bounds l2.area = some b := by
        cases hbb : SplitRect.bounds l2.area with
        | none => exact absurd ((bounds_eq_none_iff _).mp hbb) hne2
        | some b => exact ⟨b, rfl⟩
      have hcovEq : ∀ x y, SplitRect.coveredPt l1.area x y ↔
          SplitRect.coveredPt l2.area x y := by
        intro x y
        rw [hLI1.2.1 x y, hLI2.2.1 x y, visPt_ext hmem]
      rw [hb1, hb2, bounds_determined hpos1 hpos2 hcovEq hb1 hb2]
    · rw [hLI1.2.2.2.2 hp, hLI2.2.2.2.2 hp]
  unfold flattenBlock
  rw [hl1, hl2, hkeq]
  rw [List.filterMap_cons, List.filterMap_cons, List.filterMap_nil]
  rw [hbeq, href]

/-- Claim C5 theorem. Inserting a finite set of surfaces with pairwise
distinct z-indices (and i32-representable coordinates, true of every
Rust value) into an empty ZTree and flattening yields the same output
vector regardless of the insertion order. -/
theorem flatten_insert_order_independent (ss1 ss2 : List ZSurface)
    (hperm : ss1.Perm ss2) (hz : zdistinct ss1) (hrange : rangeOK ss1) :
    ZTree.flatten (buildTree ss1) = ZTree.flatten (buildTree ss2) := by
  have hsymm : Symmetric (fun a b : ZSurface => a.z_index ≠ b.z_index) := by
    intro a b hab e
    exact hab e.symm
  have hz2 : zdistinct ss2 := by
    unfold zdistinct at *
    exact (hperm.pairwise_iff (fun hab e => hab e.symm)).mp hz
  have hr2 : rangeOK ss2 := fun s h => hrange s (hperm.mem_iff.mpr h)
  have hempty : TreeInv [] ZTree.new := by
    refine ⟨List.Pairwise.nil, ?_, ?_⟩
    · intro kn hkn
      simp [ZTree.new] at hkn
    · intro s hs
      cases hs
  have hinv1 := buildTree_TreeInv ss1 [] ZTree.new hempty
    (by simpa using hz) (by simpa [rangeOK] using hrange)
  have hinv2 := buildTree_TreeInv ss2 [] ZTree.new hempty
    (by simpa using hz2) (by simpa [rangeOK] using hr2)
  rw [List.append_nil] at hinv1 hinv2
  have hzr1 : zdistinct ss1.reverse := by
    unfold zdistinct at *
    exact (List.reverse_perm ss1).pairwise_iff (fun hab e => hab e.symm) |>.mpr hz
  have hzr2 : zdistinct ss2.reverse := by
    unfold zdistinct at *
    exact (List.reverse_perm ss2).pairwise_iff (fun hab e => hab e.symm) |>.mpr hz2
  refine flatten_eq_of_TreeInv hinv1 hinv2 ?_ hzr1 hzr2
  intro s
  rw [List.mem_reverse, List.mem_reverse]
  exact hperm.mem_iff

/-- Witness for C5: two overlapping surfaces at distinct z-indices,
inserted in both orders. -/
theorem flatten_insert_order_independent_witness :
    (([⟨1, "a", ⟨0, 0, 2, 2⟩⟩, ⟨0, "b", ⟨1, 1, 3, 3⟩⟩] : List ZSurface).Perm
        [⟨0, "b", ⟨1, 1, 3, 3⟩⟩, ⟨1, "a", ⟨0, 0, 2, 2⟩⟩] ∧
      zdistinct [⟨1, "a", ⟨0, 0, 2, 2⟩⟩, ⟨0, "b", ⟨1, 1, 3, 3⟩⟩] ∧
      rangeOK [⟨1, "a", ⟨0, 0, 2, 2⟩⟩, ⟨0, "b", ⟨1, 1, 3, 3⟩⟩]) ∧
    ZTree.flatten (buildTree [⟨1, "a", ⟨0, 0, 2, 2⟩⟩, ⟨0, "b", ⟨1, 1, 3, 3⟩⟩]) =
      ZTree.flatten (buildTree [⟨0, "b", ⟨1, 1, 3, 3⟩⟩, ⟨1, "a", ⟨0, 0, 2, 2⟩⟩]) :=
  ⟨⟨by decide, by decide, by decide⟩,
   flatten_insert_order_independent
     [⟨1, "a", ⟨0, 0, 2, 2⟩⟩, ⟨0, "b", ⟨1, 1, 3, 3⟩⟩]
     [⟨0, "b", ⟨1, 1, 3, 3⟩⟩, ⟨1, "a", ⟨0, 0, 2, 2⟩⟩]
     (by decide) (by decide) (by decide)⟩

end OrderIndependence

end PinenoteService
